import Mathlib

/-!
Verification of the dynamic segment tree library (headers under
`include/dst/` and the legacy header `include/dynamic_segment_tree.hpp`).

The C++ code is embedded shallowly: a `Node` is either a leaf holding a
value or an internal node owning two children and an optional pending
update argument (the `Node<T, std::optional<UpdateT>, Allocator>`
specialization of `impl/node.hpp`).  Keys (`KeyT`, `std::integral`) are
modelled as `Int`; the C++ expression `(currBegin + currEnd) / 2`
truncates toward zero, which is `Int.tdiv`.  Mutating recursion routines
become functions returning the new node; queries return the result
paired with the (possibly sifted / materialized) tree.
-/

namespace DstSpec

/-- Midpoint as computed by the C++ sources: `(currBegin + currEnd) / 2`
with C++ signed integer division, i.e. truncation toward zero. -/
def mid2 (cb ce : Int) : Int := (cb + ce).tdiv 2

theorem tmod_two_lt (s : Int) : s.tmod 2 < 2 := Int.tmod_lt_of_pos s (by decide)

theorem neg_two_lt_tmod_two (s : Int) : -2 < s.tmod 2 := by
  have h := Int.tmod_lt_of_pos (-s) (b := 2) (by decide)
  have hneg : (-s).tmod 2 = -(s.tmod 2) := by
    rw [Int.tmod_def, Int.tmod_def, Int.neg_tdiv]; ring
  omega

theorem tdiv_add_tmod_two (s : Int) : 2 * s.tdiv 2 + s.tmod 2 = s :=
  Int.tdiv_add_tmod s 2

/-- For a span of at least two keys the computed midpoint is strictly
inside the span. -/
theorem mid2_strict (cb ce : Int) (h : cb + 2 ≤ ce) :
    cb < mid2 cb ce ∧ mid2 cb ce < ce := by
  have h1 := tdiv_add_tmod_two (cb + ce)
  have h2 := tmod_two_lt (cb + ce)
  have h3 := neg_two_lt_tmod_two (cb + ce)
  unfold mid2
  omega

/-- Weak midpoint bounds, valid for every span (used for termination). -/
theorem mid2_weak (cb ce : Int) :
    (mid2 cb ce - cb).toNat ≤ (ce - cb).toNat ∧
    (ce - mid2 cb ce).toNat ≤ (ce - cb).toNat := by
  have h1 := tdiv_add_tmod_two (cb + ce)
  have h2 := tmod_two_lt (cb + ce)
  have h3 := neg_two_lt_tmod_two (cb + ce)
  unfold mid2
  omega

/-- A tree node (`impl/node.hpp`, specialization
`Node<T, std::optional<UpdateT>, Allocator>`): a leaf owns a value; an
internal node owns two children and the `updateValue_` slot
(`std::optional<UpdateT>`). -/
inductive Node (V A : Type) where
  | leaf (value : V)
  | branch (left right : Node V A) (pending : Option A)
  deriving DecidableEq

namespace Node

variable {V A : Type}

/-- Number of nodes of the subtree (used as a termination measure). -/
def size : Node V A → Nat
  | .leaf _ => 1
  | .branch l r _ => l.size + r.size + 1

/-- `setValue` (`node.hpp` lines 102-109): collapse the subtree to a
leaf of the given value; children are destroyed and the pending slot is
reset to `std::nullopt`. -/
def setValue (_ : Node V A) (v : V) : Node V A := .leaf v

/-- `initChildren` / `initChildrenSiftingValue` success path
(`node_base.hpp` lines 146-176): called on a leaf; the value is copied
into the left child and moved into the right, and the node becomes
internal with an empty pending slot.  (The source asserts `isLeaf()`;
on an internal node we leave the node unchanged.) -/
def initChildren : Node V A → Node V A
  | .leaf v => .branch (.leaf v) (.leaf v) none
  | n => n

/-- `Node::update` (`node.hpp` lines 112-132): on a leaf replace the
value by `updateOp(value, arg)`; on an internal node first push an
existing pending argument into both children, then store exactly the
new argument in the slot. -/
def update (op : V → A → V) (a : A) : Node V A → Node V A
  | .leaf v => .leaf (op v a)
  | .branch l r none => .branch l r (some a)
  | .branch l r (some old) =>
      .branch (l.update op old) (r.update op old) (some a)

/-- `siftOptUpdate` (`node.hpp` lines 135-145): if a pending argument
exists, apply it to both children and clear the slot. -/
def siftOptUpdate (op : V → A → V) : Node V A → Node V A
  | .branch l r (some a) => .branch (l.update op a) (r.update op a) none
  | n => n

/-- Denotation: the value a key `k` holds in a subtree spanning
`[cb, ce)`, pending updates applied outermost (they cover the whole
subtree and have not yet been pushed down). -/
def eval (op : V → A → V) : Node V A → Int → Int → Int → V
  | .leaf v, _, _, _ => v
  | .branch l r p, cb, ce, k =>
      let sub :=
        if k ≥ mid2 cb ce then r.eval op (mid2 cb ce) ce k
        else l.eval op cb (mid2 cb ce) k
      match p with
      | some a => op sub a
      | none => sub

theorem size_update (op : V → A → V) :
    ∀ (n : Node V A) (a : A), (n.update op a).size = n.size := by
  intro n
  induction n with
  | leaf v => intro a; simp [update, size]
  | branch l r p ihl ihr =>
    intro a
    cases p with
    | none => simp [update, size]
    | some old => simp [update, size, ihl, ihr]

theorem size_siftOptUpdate (op : V → A → V) (n : Node V A) :
    (n.siftOptUpdate op).size = n.size := by
  cases n with
  | leaf v => rfl
  | branch l r p =>
    cases p with
    | none => rfl
    | some a => simp [siftOptUpdate, size, size_update op]

theorem size_pos (n : Node V A) : 0 < n.size := by
  cases n <;> simp [size]

theorem siftOptUpdate_pending_none (op : V → A → V) (n : Node V A)
    (l r : Node V A) (p : Option A) :
    n.siftOptUpdate op = .branch l r p → p = none := by
  cases n with
  | leaf v => intro h; cases h
  | branch l0 r0 p0 =>
    cases p0 with
    | none => intro h; cases h; rfl
    | some a => intro h; cases h; rfl

theorem eval_update (op : V → A → V) :
    ∀ (n : Node V A) (a : A) (cb ce k : Int),
      (n.update op a).eval op cb ce k = op (n.eval op cb ce k) a := by
  intro n
  induction n with
  | leaf v => intro a cb ce k; simp [update, eval]
  | branch l r p ihl ihr =>
    intro a cb ce k
    cases p with
    | none => simp [update, eval]
    | some old =>
      simp only [update, eval, ihl, ihr]
      split <;> rfl

theorem eval_siftOptUpdate (op : V → A → V) (n : Node V A) (cb ce k : Int) :
    (n.siftOptUpdate op).eval op cb ce k = n.eval op cb ce k := by
  cases n with
  | leaf v => rfl
  | branch l r p =>
    cases p with
    | none => rfl
    | some a => simp only [siftOptUpdate, eval, eval_update]; split <;> rfl

theorem eval_initChildren (op : V → A → V) (n : Node V A) (cb ce k : Int) :
    (n.initChildren).eval op cb ce k = n.eval op cb ce k := by
  cases n with
  | leaf v => simp only [initChildren, eval]; split <;> rfl
  | branch l r p => rfl

end Node

/-- The topology of a subtree: which nodes are allocated, with values and
pending slots erased. -/
inductive NodeShape where
  | sleaf
  | sbranch (left right : NodeShape)
  deriving DecidableEq

/-- The allocation skeleton of a subtree. -/
def Node.skeleton {V A : Type} : Node V A → NodeShape
  | .leaf _ => .sleaf
  | .branch l r _ => .sbranch l.skeleton r.skeleton

theorem Node.skeleton_update {V A : Type} (op : V → A → V) :
    ∀ (n : Node V A) (a : A), (n.update op a).skeleton = n.skeleton := by
  intro n
  induction n with
  | leaf v => intro a; rfl
  | branch l r p ihl ihr =>
    intro a
    cases p with
    | none => rfl
    | some old => simp [Node.update, Node.skeleton, ihl, ihr]

theorem Node.skeleton_siftOptUpdate {V A : Type} (op : V → A → V)
    (n : Node V A) : (n.siftOptUpdate op).skeleton = n.skeleton := by
  cases n with
  | leaf v => rfl
  | branch l r p =>
    cases p with
    | none => rfl
    | some a => simp [Node.siftOptUpdate, Node.skeleton, Node.skeleton_update]

/-- Span well-formedness of a topology: every internal node splits a span
of at least two keys at the computed midpoint. -/
def NodeShape.wf : NodeShape → Int → Int → Prop
  | .sleaf, _, _ => True
  | .sbranch l r, cb, ce =>
      cb + 2 ≤ ce ∧ l.wf cb (mid2 cb ce) ∧ r.wf (mid2 cb ce) ce

/-- Span well-formedness of a subtree. -/
def Node.wf {V A : Type} (n : Node V A) (cb ce : Int) : Prop :=
  n.skeleton.wf cb ce

/-- The value stored in a leaf, `none` on an internal node. -/
def Node.leafValue? {V A : Type} : Node V A → Option V
  | .leaf v => some v
  | .branch _ _ _ => none

variable {V A G : Type}

/-- `setImpl_` (`dst/dynamic_segment_tree.hpp` lines 339-363, const
reference overload): if the update range covers the current span,
collapse to a leaf via `setValue`; otherwise materialize children of a
leaf, sift the pending update, and recurse into the halves that meet
the range.  The three `assert`s of the source become the guard
`cb < e ∧ b < ce ∧ b < e`; outside it the source's behavior is
unspecified and the node is returned unchanged. -/
def setImpl_ (op : V → A → V) (b e : Int) : Int → Int → Node V A → V → Node V A
  | cb, ce, n, v =>
    if e ≥ ce ∧ b ≤ cb then n.setValue v
    else if hpre : cb < e ∧ b < ce ∧ b < e then
      match hs : (n.initChildren).siftOptUpdate op with
      | .leaf v0 => .leaf v0
      | .branch l2 r2 p2 =>
          let l3 := if mid2 cb ce > b then setImpl_ op b e cb (mid2 cb ce) l2 v else l2
          let r3 := if mid2 cb ce < e then setImpl_ op b e (mid2 cb ce) ce r2 v else r2
          .branch l3 r3 p2
    else n
termination_by cb ce n v => (ce - cb).toNat
decreasing_by
  all_goals
    have hce : cb + 2 ≤ ce := by omega
    have hm := mid2_strict cb ce hce
    omega

/-- Modelled from the spec: `updateImpl_` lives in
`dst/impl/dynamic_segment_tree_update_variation_base.hpp`, which is not
among the sources; §4.3 specifies it as identical in shape to `set`
with `apply_update` (`Node::update`) as the covering action. -/
def updateImpl_ (op : V → A → V) (b e : Int) : Int → Int → Node V A → A → Node V A
  | cb, ce, n, a =>
    if e ≥ ce ∧ b ≤ cb then n.update op a
    else if hpre : cb < e ∧ b < ce ∧ b < e then
      match hs : (n.initChildren).siftOptUpdate op with
      | .leaf v0 => .leaf v0
      | .branch l2 r2 p2 =>
          let l3 := if mid2 cb ce > b then updateImpl_ op b e cb (mid2 cb ce) l2 a else l2
          let r3 := if mid2 cb ce < e then updateImpl_ op b e (mid2 cb ce) ce r2 a else r2
          .branch l3 r3 p2
    else n
termination_by cb ce n a => (ce - cb).toNat
decreasing_by
  all_goals
    have hce : cb + 2 ≤ ce := by omega
    have hm := mid2_strict cb ce hce
    omega

/-- `getImpl_` (`dst/dynamic_segment_tree.hpp` lines 412-426): walk down
to the leaf holding `key`, sifting the pending update of every internal
node visited; returns the value found together with the sifted tree. -/
def getImpl_ (op : V → A → V) (k : Int) : Int → Int → Node V A → V × Node V A
  | _, _, .leaf v => (v, .leaf v)
  | cb, ce, .branch l r p =>
    match hs : (Node.branch l r p).siftOptUpdate op with
    | .leaf v0 => (v0, .leaf v0)
    | .branch l2 r2 p2 =>
        if k ≥ mid2 cb ce then
          let res := getImpl_ op k (mid2 cb ce) ce r2
          (res.1, .branch l2 res.2 p2)
        else
          let res := getImpl_ op k cb (mid2 cb ce) l2
          (res.1, .branch res.2 r2 p2)
termination_by cb ce n => n.size
decreasing_by
  all_goals
    have hsz := Node.size_siftOptUpdate op (Node.branch l r p)
    rw [hs] at hsz
    simp only [Node.size] at hsz
    have h1 := Node.size_pos l2
    have h2 := Node.size_pos r2
    simp only [Node.size]
    omega

/-- `rangeGetImpl_` (`dst/dynamic_segment_tree.hpp` lines 434-471): on a
leaf covered by the query return the initialized aggregate; otherwise
materialize children of a leaf, sift, and recurse, combining the two
halves with the clipped borders.  `z` stands for the
default-constructed value the source's unreachable assert branch
returns; as in `setImpl_` the recursion is modelled only under the real
overlap invariant of §4.3, since outside it the source recursion does
not terminate. -/
def rangeGetImpl_ (op : V → A → V) (z : G) (initG : Int → Int → V → G)
    (comb : G → G → Int → Int → Int → G) (b e : Int) :
    Int → Int → Node V A → G × Node V A
  | cb, ce, n =>
    if hpre : cb < e ∧ b < ce ∧ b < e then
      match hv : (if e ≥ ce ∧ b ≤ cb then n.leafValue? else none) with
      | some v => (initG cb ce v, n)
      | none =>
        match hs : (n.initChildren).siftOptUpdate op with
        | .leaf v0 => (z, .leaf v0)
        | .branch l2 r2 p2 =>
            if b ≥ mid2 cb ce then
              let res := rangeGetImpl_ op z initG comb b e (mid2 cb ce) ce r2
              (res.1, .branch l2 res.2 p2)
            else if e ≤ mid2 cb ce then
              let res := rangeGetImpl_ op z initG comb b e cb (mid2 cb ce) l2
              (res.1, .branch res.2 r2 p2)
            else
              let rres := rangeGetImpl_ op z initG comb b e (mid2 cb ce) ce r2
              let lres := rangeGetImpl_ op z initG comb b e cb (mid2 cb ce) l2
              (comb lres.1 rres.1 (max cb b) (mid2 cb ce) (min ce e),
                .branch lres.2 rres.2 p2)
    else (z, n)
termination_by cb ce n => (ce - cb).toNat + n.size
decreasing_by
  all_goals
    rcases n with v | ⟨l, r, p⟩
    case leaf =>
      split at hv
      · simp [Node.leafValue?] at hv
      · simp only [Node.initChildren, Node.siftOptUpdate] at hs
        rw [Node.branch.injEq] at hs
        obtain ⟨h1, h2, h3⟩ := hs
        subst h1; subst h2
        have hce : cb + 2 ≤ ce := by omega
        have hm := mid2_strict cb ce hce
        simp only [Node.size]
        omega
    case branch =>
      have hsz := Node.size_siftOptUpdate op ((Node.branch l r p).initChildren)
      rw [hs] at hsz
      simp only [Node.initChildren, Node.size] at hsz
      have h1 := Node.size_pos l2
      have h2 := Node.size_pos r2
      have hw := mid2_weak cb ce
      simp only [Node.size]
      omega

theorem sift_initChildren_ne_leaf (op : V → A → V) (n : Node V A) (v0 : V) :
    (n.initChildren).siftOptUpdate op ≠ .leaf v0 := by
  cases n with
  | leaf v => simp [Node.initChildren, Node.siftOptUpdate]
  | branch l r p => cases p <;> simp [Node.initChildren, Node.siftOptUpdate]

theorem sift_branch_ne_leaf (op : V → A → V) (l r : Node V A) (p : Option A)
    (v0 : V) : (Node.branch l r p).siftOptUpdate op ≠ .leaf v0 := by
  cases p <;> simp [Node.siftOptUpdate]

theorem eval_init_sift (op : V → A → V) (n l2 r2 : Node V A) (p2 : Option A)
    (hs : (n.initChildren).siftOptUpdate op = .branch l2 r2 p2) (cb ce k : Int) :
    n.eval op cb ce k = (Node.branch l2 r2 p2).eval op cb ce k := by
  rw [← hs, Node.eval_siftOptUpdate, Node.eval_initChildren]

/-- Unfolding of `setImpl_` in the recursive case. -/
theorem setImpl_branch_eq (op : V → A → V) (b e cb ce : Int) (n : Node V A)
    (v : V) (l2 r2 : Node V A) (p2 : Option A)
    (hcov : ¬(e ≥ ce ∧ b ≤ cb)) (hpre : cb < e ∧ b < ce ∧ b < e)
    (hs : (n.initChildren).siftOptUpdate op = .branch l2 r2 p2) :
    setImpl_ op b e cb ce n v =
      .branch
        (if mid2 cb ce > b then setImpl_ op b e cb (mid2 cb ce) l2 v else l2)
        (if mid2 cb ce < e then setImpl_ op b e (mid2 cb ce) ce r2 v else r2)
        p2 := by
  conv_lhs => rw [setImpl_]
  rw [if_neg hcov, dif_pos hpre]
  split
  · rename_i v0 heq
    rw [hs] at heq
    cases heq
  · rename_i l3 r3 p3 heq
    rw [hs] at heq
    injection heq with h1 h2 h3
    subst h1; subst h2; subst h3
    rfl

/-- Unfolding of `updateImpl_` in the recursive case. -/
theorem updateImpl_branch_eq (op : V → A → V) (b e cb ce : Int) (n : Node V A)
    (a : A) (l2 r2 : Node V A) (p2 : Option A)
    (hcov : ¬(e ≥ ce ∧ b ≤ cb)) (hpre : cb < e ∧ b < ce ∧ b < e)
    (hs : (n.initChildren).siftOptUpdate op = .branch l2 r2 p2) :
    updateImpl_ op b e cb ce n a =
      .branch
        (if mid2 cb ce > b then updateImpl_ op b e cb (mid2 cb ce) l2 a else l2)
        (if mid2 cb ce < e then updateImpl_ op b e (mid2 cb ce) ce r2 a else r2)
        p2 := by
  conv_lhs => rw [updateImpl_]
  rw [if_neg hcov, dif_pos hpre]
  split
  · rename_i v0 heq
    rw [hs] at heq
    cases heq
  · rename_i l3 r3 p3 heq
    rw [hs] at heq
    injection heq with h1 h2 h3
    subst h1; subst h2; subst h3
    rfl

/-- Unfolding of `getImpl_` on an internal node. -/
theorem getImpl_branch_eq (op : V → A → V) (k cb ce : Int)
    (l r : Node V A) (p : Option A) (l2 r2 : Node V A) (p2 : Option A)
    (hs : (Node.branch l r p).siftOptUpdate op = .branch l2 r2 p2) :
    getImpl_ op k cb ce (.branch l r p) =
      if k ≥ mid2 cb ce then
        ((getImpl_ op k (mid2 cb ce) ce r2).1,
          .branch l2 (getImpl_ op k (mid2 cb ce) ce r2).2 p2)
      else
        ((getImpl_ op k cb (mid2 cb ce) l2).1,
          .branch (getImpl_ op k cb (mid2 cb ce) l2).2 r2 p2) := by
  conv_lhs => rw [getImpl_]
  split
  · rename_i v0 heq
    rw [hs] at heq
    cases heq
  · rename_i l3 r3 p3 heq
    rw [hs] at heq
    injection heq with h1 h2 h3
    subst h1; subst h2; subst h3
    rfl

/-- `setImpl_` implements pointwise range assignment: inside `[cb, ce)`
a key's value becomes `v` exactly when the key lies in `[b, e)`. -/
theorem eval_setImpl (op : V → A → V) (b e : Int) :
    ∀ (cb ce : Int) (n : Node V A) (v : V),
      cb < e → b < ce → b < e →
      ∀ k, cb ≤ k → k < ce →
      (setImpl_ op b e cb ce n v).eval op cb ce k
        = if b ≤ k ∧ k < e then v else n.eval op cb ce k := by
  intro cb ce n v
  induction cb, ce, n, v using setImpl_.induct op b e with
  | case1 cb ce n v hcov =>
    intro h1 h2 h3 k hk1 hk2
    conv_lhs => rw [setImpl_]
    rw [if_pos hcov]
    have hin : b ≤ k ∧ k < e := ⟨le_trans hcov.2 hk1, lt_of_lt_of_le hk2 hcov.1⟩
    rw [if_pos hin]
    rfl
  | case2 cb ce n v hcov hpre v0 hs =>
    exact absurd hs (sift_initChildren_ne_leaf op n v0)
  | case3 cb ce n v hcov hpre l2 r2 p2 hs ihl ihr =>
    intro h1 h2 h3 k hk1 hk2
    have hce : cb + 2 ≤ ce := by omega
    obtain ⟨hm1, hm2⟩ := mid2_strict cb ce hce
    have hpn : p2 = none := Node.siftOptUpdate_pending_none op _ l2 r2 p2 hs
    subst hpn
    rw [setImpl_branch_eq op b e cb ce n v l2 r2 none hcov hpre hs]
    rw [eval_init_sift op n l2 r2 none hs cb ce k]
    by_cases hk : k ≥ mid2 cb ce
    · simp only [Node.eval, if_pos hk]
      by_cases hre : mid2 cb ce < e
      · rw [if_pos hre]
        exact ihr hre h2 h3 k hk hk2
      · rw [if_neg hre]
        have : ¬(b ≤ k ∧ k < e) := by omega
        rw [if_neg this]
    · simp only [Node.eval, if_neg hk]
      by_cases hlb : mid2 cb ce > b
      · rw [if_pos hlb]
        exact ihl h1 hlb h3 k hk1 (by omega)
      · rw [if_neg hlb]
        have : ¬(b ≤ k ∧ k < e) := by omega
        rw [if_neg this]
  | case4 cb ce n v hcov hnpre =>
    intro h1 h2 h3
    exact absurd ⟨h1, h2, h3⟩ hnpre

/-- `updateImpl_` implements pointwise range update: inside `[cb, ce)` a
key's value becomes `op value a` exactly when the key lies in `[b, e)`. -/
theorem eval_updateImpl (op : V → A → V) (b e : Int) :
    ∀ (cb ce : Int) (n : Node V A) (a : A),
      cb < e → b < ce → b < e →
      ∀ k, cb ≤ k → k < ce →
      (updateImpl_ op b e cb ce n a).eval op cb ce k
        = if b ≤ k ∧ k < e then op (n.eval op cb ce k) a
          else n.eval op cb ce k := by
  intro cb ce n a
  induction cb, ce, n, a using updateImpl_.induct op b e with
  | case1 cb ce n a hcov =>
    intro h1 h2 h3 k hk1 hk2
    conv_lhs => rw [updateImpl_]
    rw [if_pos hcov]
    have hin : b ≤ k ∧ k < e := ⟨le_trans hcov.2 hk1, lt_of_lt_of_le hk2 hcov.1⟩
    rw [if_pos hin, Node.eval_update]
  | case2 cb ce n a hcov hpre v0 hs =>
    exact absurd hs (sift_initChildren_ne_leaf op n v0)
  | case3 cb ce n a hcov hpre l2 r2 p2 hs ihl ihr =>
    intro h1 h2 h3 k hk1 hk2
    have hce : cb + 2 ≤ ce := by omega
    obtain ⟨hm1, hm2⟩ := mid2_strict cb ce hce
    have hpn : p2 = none := Node.siftOptUpdate_pending_none op _ l2 r2 p2 hs
    subst hpn
    rw [updateImpl_branch_eq op b e cb ce n a l2 r2 none hcov hpre hs]
    rw [eval_init_sift op n l2 r2 none hs cb ce k]
    by_cases hk : k ≥ mid2 cb ce
    · simp only [Node.eval, if_pos hk]
      by_cases hre : mid2 cb ce < e
      · rw [if_pos hre]
        exact ihr hre h2 h3 k hk hk2
      · rw [if_neg hre]
        have : ¬(b ≤ k ∧ k < e) := by omega
        rw [if_neg this]
    · simp only [Node.eval, if_neg hk]
      by_cases hlb : mid2 cb ce > b
      · rw [if_pos hlb]
        exact ihl h1 hlb h3 k hk1 (by omega)
      · rw [if_neg hlb]
        have : ¬(b ≤ k ∧ k < e) := by omega
        rw [if_neg this]
  | case4 cb ce n a hcov hnpre =>
    intro h1 h2 h3
    exact absurd ⟨h1, h2, h3⟩ hnpre

/-- The value `getImpl_` returns is the denotation of the key. -/
theorem getImpl_fst (op : V → A → V) (k : Int) :
    ∀ (cb ce : Int) (n : Node V A),
      (getImpl_ op k cb ce n).1 = n.eval op cb ce k := by
  intro cb ce n
  induction cb, ce, n using getImpl_.induct op k with
  | case1 cb ce v => rw [getImpl_]; rfl
  | case2 cb ce l r p v0 hs => exact absurd hs (sift_branch_ne_leaf op l r p v0)
  | case3 cb ce l r p l2 r2 p2 hs hk ih =>
    have hpn : p2 = none := Node.siftOptUpdate_pending_none op _ l2 r2 p2 hs
    subst hpn
    rw [getImpl_branch_eq op k cb ce l r p l2 r2 none hs, if_pos hk]
    rw [← Node.eval_siftOptUpdate op (Node.branch l r p) cb ce k, hs]
    simp only [Node.eval, if_pos hk]
    exact ih
  | case4 cb ce l r p l2 r2 p2 hs hk ih =>
    have hpn : p2 = none := Node.siftOptUpdate_pending_none op _ l2 r2 p2 hs
    subst hpn
    rw [getImpl_branch_eq op k cb ce l r p l2 r2 none hs, if_neg hk]
    rw [← Node.eval_siftOptUpdate op (Node.branch l r p) cb ce k, hs]
    simp only [Node.eval, if_neg hk]
    exact ih

/-- The sifting done by `getImpl_` does not change any key's value. -/
theorem eval_getImpl_snd (op : V → A → V) (k : Int) :
    ∀ (cb ce : Int) (n : Node V A) (j : Int),
      ((getImpl_ op k cb ce n).2).eval op cb ce j = n.eval op cb ce j := by
  intro cb ce n
  induction cb, ce, n using getImpl_.induct op k with
  | case1 cb ce v => intro j; rw [getImpl_]
  | case2 cb ce l r p v0 hs => exact absurd hs (sift_branch_ne_leaf op l r p v0)
  | case3 cb ce l r p l2 r2 p2 hs hk ih =>
    intro j
    have hpn : p2 = none := Node.siftOptUpdate_pending_none op _ l2 r2 p2 hs
    subst hpn
    rw [getImpl_branch_eq op k cb ce l r p l2 r2 none hs, if_pos hk]
    rw [← Node.eval_siftOptUpdate op (Node.branch l r p) cb ce j, hs]
    simp only [Node.eval]
    split
    · exact ih j
    · rfl
  | case4 cb ce l r p l2 r2 p2 hs hk ih =>
    intro j
    have hpn : p2 = none := Node.siftOptUpdate_pending_none op _ l2 r2 p2 hs
    subst hpn
    rw [getImpl_branch_eq op k cb ce l r p l2 r2 none hs, if_neg hk]
    rw [← Node.eval_siftOptUpdate op (Node.branch l r p) cb ce j, hs]
    simp only [Node.eval]
    split
    · rfl
    · exact ih j

/-- `getImpl_` never allocates or frees nodes: the tree it leaves behind
has exactly the topology it started with. -/
theorem skeleton_getImpl_snd (op : V → A → V) (k : Int) :
    ∀ (cb ce : Int) (n : Node V A),
      ((getImpl_ op k cb ce n).2).skeleton = n.skeleton := by
  intro cb ce n
  induction cb, ce, n using getImpl_.induct op k with
  | case1 cb ce v => rw [getImpl_]
  | case2 cb ce l r p v0 hs => exact absurd hs (sift_branch_ne_leaf op l r p v0)
  | case3 cb ce l r p l2 r2 p2 hs hk ih =>
    rw [getImpl_branch_eq op k cb ce l r p l2 r2 p2 hs, if_pos hk]
    have hsk := Node.skeleton_siftOptUpdate op (Node.branch l r p)
    rw [hs] at hsk
    simp only [Node.skeleton] at hsk ⊢
    rw [ih]
    exact hsk
  | case4 cb ce l r p l2 r2 p2 hs hk ih =>
    rw [getImpl_branch_eq op k cb ce l r p l2 r2 p2 hs, if_neg hk]
    have hsk := Node.skeleton_siftOptUpdate op (Node.branch l r p)
    rw [hs] at hsk
    simp only [Node.skeleton] at hsk ⊢
    rw [ih]
    exact hsk

/-- Unfolding of `rangeGetImpl_` on a covered leaf. -/
theorem rangeGetImpl_leaf_cover (op : V → A → V) (z : G)
    (initG : Int → Int → V → G) (comb : G → G → Int → Int → Int → G)
    (b e cb ce : Int) (v : V)
    (hpre : cb < e ∧ b < ce ∧ b < e) (hcov : e ≥ ce ∧ b ≤ cb) :
    rangeGetImpl_ op z initG comb b e cb ce (.leaf v)
      = (initG cb ce v, .leaf v) := by
  conv_lhs => rw [rangeGetImpl_]
  rw [dif_pos hpre]
  split
  · rename_i v2 hv
    rw [if_pos hcov] at hv
    simp only [Node.leafValue?, Option.some.injEq] at hv
    subst hv
    rfl
  · rename_i hv
    rw [if_pos hcov] at hv
    simp [Node.leafValue?] at hv

/-- Unfolding of `rangeGetImpl_` in the recursive case. -/
theorem rangeGetImpl_branch_eq (op : V → A → V) (z : G)
    (initG : Int → Int → V → G) (comb : G → G → Int → Int → Int → G)
    (b e cb ce : Int) (n : Node V A) (l2 r2 : Node V A) (p2 : Option A)
    (hpre : cb < e ∧ b < ce ∧ b < e)
    (hnc : (if e ≥ ce ∧ b ≤ cb then n.leafValue? else none) = none)
    (hs : (n.initChildren).siftOptUpdate op = .branch l2 r2 p2) :
    rangeGetImpl_ op z initG comb b e cb ce n =
      if b ≥ mid2 cb ce then
        ((rangeGetImpl_ op z initG comb b e (mid2 cb ce) ce r2).1,
          .branch l2 (rangeGetImpl_ op z initG comb b e (mid2 cb ce) ce r2).2 p2)
      else if e ≤ mid2 cb ce then
        ((rangeGetImpl_ op z initG comb b e cb (mid2 cb ce) l2).1,
          .branch (rangeGetImpl_ op z initG comb b e cb (mid2 cb ce) l2).2 r2 p2)
      else
        (comb (rangeGetImpl_ op z initG comb b e cb (mid2 cb ce) l2).1
              (rangeGetImpl_ op z initG comb b e (mid2 cb ce) ce r2).1
              (max cb b) (mid2 cb ce) (min ce e),
          .branch (rangeGetImpl_ op z initG comb b e cb (mid2 cb ce) l2).2
                  (rangeGetImpl_ op z initG comb b e (mid2 cb ce) ce r2).2 p2) := by
  conv_lhs => rw [rangeGetImpl_]
  rw [dif_pos hpre]
  split
  · rename_i v hv
    rw [hnc] at hv
    cases hv
  · split
    · rename_i v0 heq
      exact absurd heq (sift_initChildren_ne_leaf op n v0)
    · rename_i l3 r3 p3 heq
      rw [hs] at heq
      injection heq with h1 h2 h3
      subst h1; subst h2; subst h3
      rfl

/-- The sifting and child materialization done by `rangeGetImpl_` do not
change any key's value. -/
theorem eval_rangeGetImpl_snd (op : V → A → V) (z : G)
    (initG : Int → Int → V → G) (comb : G → G → Int → Int → Int → G)
    (b e : Int) :
    ∀ (cb ce : Int) (n : Node V A) (j : Int),
      ((rangeGetImpl_ op z initG comb b e cb ce n).2).eval op cb ce j
        = n.eval op cb ce j := by
  intro cb ce n
  induction cb, ce, n using rangeGetImpl_.induct op z initG comb b e with
  | case1 cb ce n hpre v hv =>
    intro j
    conv_lhs => rw [rangeGetImpl_]
    rw [dif_pos hpre]
    split
    · rfl
    · rename_i hv2
      rw [dite_eq_ite] at hv
      rw [hv] at hv2
      cases hv2
  | case2 cb ce n hpre hnc v0 hs =>
    exact absurd hs (sift_initChildren_ne_leaf op n v0)
  | case3 cb ce n hpre hnc l2 r2 p2 hs hb ih =>
    intro j
    rw [dite_eq_ite] at hnc
    have hpn : p2 = none := Node.siftOptUpdate_pending_none op _ l2 r2 p2 hs
    subst hpn
    rw [rangeGetImpl_branch_eq op z initG comb b e cb ce n l2 r2 none hpre hnc hs,
      if_pos hb]
    rw [eval_init_sift op n l2 r2 none hs cb ce j]
    simp only [Node.eval]
    split
    · exact ih j
    · rfl
  | case4 cb ce n hpre hnc l2 r2 p2 hs hb he ih =>
    intro j
    rw [dite_eq_ite] at hnc
    have hpn : p2 = none := Node.siftOptUpdate_pending_none op _ l2 r2 p2 hs
    subst hpn
    rw [rangeGetImpl_branch_eq op z initG comb b e cb ce n l2 r2 none hpre hnc hs,
      if_neg hb, if_pos he]
    rw [eval_init_sift op n l2 r2 none hs cb ce j]
    simp only [Node.eval]
    split
    · rfl
    · exact ih j
  | case5 cb ce n hpre hnc l2 r2 p2 hs hb he ihr ihl =>
    intro j
    rw [dite_eq_ite] at hnc
    have hpn : p2 = none := Node.siftOptUpdate_pending_none op _ l2 r2 p2 hs
    subst hpn
    rw [rangeGetImpl_branch_eq op z initG comb b e cb ce n l2 r2 none hpre hnc hs,
      if_neg hb, if_neg he]
    rw [eval_init_sift op n l2 r2 none hs cb ce j]
    simp only [Node.eval]
    split
    · exact ihr j
    · exact ihl j
  | case6 cb ce n hnpre =>
    intro j
    conv_lhs => rw [rangeGetImpl_]
    rw [dif_neg hnpre]

theorem Node.wf_of_skeleton {V A : Type} (m n : Node V A) (cb ce : Int)
    (h : m.skeleton = n.skeleton) : m.wf cb ce ↔ n.wf cb ce := by
  unfold Node.wf
  rw [h]

theorem Node.wf_leaf {V A : Type} (v : V) (cb ce : Int) :
    (Node.leaf v : Node V A).wf cb ce := by
  unfold Node.wf Node.skeleton NodeShape.wf
  trivial

theorem Node.wf_branch_iff {V A : Type} (l r : Node V A) (p : Option A)
    (cb ce : Int) :
    (Node.branch l r p).wf cb ce ↔
      cb + 2 ≤ ce ∧ l.wf cb (mid2 cb ce) ∧ r.wf (mid2 cb ce) ce :=
  Iff.rfl

theorem sift_branch_skeletons (op : V → A → V) (l r : Node V A) (p : Option A)
    (l2 r2 : Node V A) (p2 : Option A)
    (hs : (Node.branch l r p).siftOptUpdate op = .branch l2 r2 p2) :
    l2.skeleton = l.skeleton ∧ r2.skeleton = r.skeleton := by
  have h := Node.skeleton_siftOptUpdate op (Node.branch l r p)
  rw [hs] at h
  simp only [Node.skeleton, NodeShape.sbranch.injEq] at h
  exact h

theorem wf_children_init_sift (op : V → A → V) (n l2 r2 : Node V A)
    (p2 : Option A) (cb ce : Int)
    (hs : (n.initChildren).siftOptUpdate op = .branch l2 r2 p2)
    (hwf : n.wf cb ce) :
    l2.wf cb (mid2 cb ce) ∧ r2.wf (mid2 cb ce) ce := by
  cases n with
  | leaf v =>
    simp only [Node.initChildren, Node.siftOptUpdate, Node.branch.injEq] at hs
    obtain ⟨h1, h2, h3⟩ := hs
    subst h1; subst h2
    exact ⟨Node.wf_leaf v cb (mid2 cb ce), Node.wf_leaf v (mid2 cb ce) ce⟩
  | branch l r p =>
    have hs2 : (Node.branch l r p).siftOptUpdate op = .branch l2 r2 p2 := by
      simpa [Node.initChildren] using hs
    obtain ⟨hl, hr⟩ := sift_branch_skeletons op l r p l2 r2 p2 hs2
    rw [Node.wf_branch_iff] at hwf
    rw [Node.wf_of_skeleton l2 l cb (mid2 cb ce) hl,
      Node.wf_of_skeleton r2 r (mid2 cb ce) ce hr]
    exact ⟨hwf.2.1, hwf.2.2⟩

/-- `setImpl_` keeps the tree span-well-formed. -/
theorem wf_setImpl (op : V → A → V) (b e : Int) :
    ∀ (cb ce : Int) (n : Node V A) (v : V),
      n.wf cb ce → (setImpl_ op b e cb ce n v).wf cb ce := by
  intro cb ce n v
  induction cb, ce, n, v using setImpl_.induct op b e with
  | case1 cb ce n v hcov =>
    intro _
    rw [setImpl_, if_pos hcov]
    exact Node.wf_leaf v cb ce
  | case2 cb ce n v hcov hpre v0 hs =>
    exact absurd hs (sift_initChildren_ne_leaf op n v0)
  | case3 cb ce n v hcov hpre l2 r2 p2 hs ihl ihr =>
    intro hwf
    rw [setImpl_branch_eq op b e cb ce n v l2 r2 p2 hcov hpre hs]
    have hce : cb + 2 ≤ ce := by omega
    obtain ⟨hwl, hwr⟩ := wf_children_init_sift op n l2 r2 p2 cb ce hs hwf
    rw [Node.wf_branch_iff]
    refine ⟨hce, ?_, ?_⟩
    · split
      · exact ihl hwl
      · exact hwl
    · split
      · exact ihr hwr
      · exact hwr
  | case4 cb ce n v hcov hnpre =>
    intro hwf
    rw [setImpl_, if_neg hcov, dif_neg hnpre]
    exact hwf

/-- `updateImpl_` keeps the tree span-well-formed. -/
theorem wf_updateImpl (op : V → A → V) (b e : Int) :
    ∀ (cb ce : Int) (n : Node V A) (a : A),
      n.wf cb ce → (updateImpl_ op b e cb ce n a).wf cb ce := by
  intro cb ce n a
  induction cb, ce, n, a using updateImpl_.induct op b e with
  | case1 cb ce n a hcov =>
    intro hwf
    rw [updateImpl_, if_pos hcov]
    rw [Node.wf_of_skeleton (n.update op a) n cb ce (Node.skeleton_update op n a)]
    exact hwf
  | case2 cb ce n a hcov hpre v0 hs =>
    exact absurd hs (sift_initChildren_ne_leaf op n v0)
  | case3 cb ce n a hcov hpre l2 r2 p2 hs ihl ihr =>
    intro hwf
    rw [updateImpl_branch_eq op b e cb ce n a l2 r2 p2 hcov hpre hs]
    have hce : cb + 2 ≤ ce := by omega
    obtain ⟨hwl, hwr⟩ := wf_children_init_sift op n l2 r2 p2 cb ce hs hwf
    rw [Node.wf_branch_iff]
    refine ⟨hce, ?_, ?_⟩
    · split
      · exact ihl hwl
      · exact hwl
    · split
      · exact ihr hwr
      · exact hwr
  | case4 cb ce n a hcov hnpre =>
    intro hwf
    rw [updateImpl_, if_neg hcov, dif_neg hnpre]
    exact hwf

/-- `getImpl_` keeps the tree span-well-formed (it keeps the topology). -/
theorem wf_getImpl_snd (op : V → A → V) (k cb ce : Int) (n : Node V A)
    (hwf : n.wf cb ce) : ((getImpl_ op k cb ce n).2).wf cb ce := by
  rw [Node.wf_of_skeleton _ n cb ce (skeleton_getImpl_snd op k cb ce n)]
  exact hwf

/-- `rangeGetImpl_` keeps the tree span-well-formed. -/
theorem wf_rangeGetImpl_snd (op : V → A → V) (z : G)
    (initG : Int → Int → V → G) (comb : G → G → Int → Int → Int → G)
    (b e : Int) :
    ∀ (cb ce : Int) (n : Node V A),
      n.wf cb ce → ((rangeGetImpl_ op z initG comb b e cb ce n).2).wf cb ce := by
  intro cb ce n
  induction cb, ce, n using rangeGetImpl_.induct op z initG comb b e with
  | case1 cb ce n hpre v hv =>
    intro hwf
    rw [rangeGetImpl_, dif_pos hpre]
    split
    · exact hwf
    · rename_i hv2
      rw [dite_eq_ite] at hv
      rw [hv] at hv2
      cases hv2
  | case2 cb ce n hpre hnc v0 hs =>
    exact absurd hs (sift_initChildren_ne_leaf op n v0)
  | case3 cb ce n hpre hnc l2 r2 p2 hs hb ih =>
    intro hwf
    rw [dite_eq_ite] at hnc
    have hce : cb + 2 ≤ ce := by
      cases n with
      | leaf v =>
        have hnotcov : ¬(e ≥ ce ∧ b ≤ cb) := by
          intro hcov
          rw [if_pos hcov] at hnc
          simp [Node.leafValue?] at hnc
        omega
      | branch l r p =>
        exact ((Node.wf_branch_iff l r p cb ce).mp hwf).1
    obtain ⟨hwl, hwr⟩ := wf_children_init_sift op n l2 r2 p2 cb ce hs hwf
    rw [rangeGetImpl_branch_eq op z initG comb b e cb ce n l2 r2 p2 hpre hnc hs,
      if_pos hb]
    rw [Node.wf_branch_iff]
    exact ⟨hce, hwl, ih hwr⟩
  | case4 cb ce n hpre hnc l2 r2 p2 hs hb he ih =>
    intro hwf
    rw [dite_eq_ite] at hnc
    have hce : cb + 2 ≤ ce := by
      cases n with
      | leaf v =>
        have hnotcov : ¬(e ≥ ce ∧ b ≤ cb) := by
          intro hcov
          rw [if_pos hcov] at hnc
          simp [Node.leafValue?] at hnc
        omega
      | branch l r p =>
        exact ((Node.wf_branch_iff l r p cb ce).mp hwf).1
    obtain ⟨hwl, hwr⟩ := wf_children_init_sift op n l2 r2 p2 cb ce hs hwf
    rw [rangeGetImpl_branch_eq op z initG comb b e cb ce n l2 r2 p2 hpre hnc hs,
      if_neg hb, if_pos he]
    rw [Node.wf_branch_iff]
    exact ⟨hce, ih hwl, hwr⟩
  | case5 cb ce n hpre hnc l2 r2 p2 hs hb he ihr ihl =>
    intro hwf
    rw [dite_eq_ite] at hnc
    have hce : cb + 2 ≤ ce := by
      cases n with
      | leaf v =>
        have hnotcov : ¬(e ≥ ce ∧ b ≤ cb) := by
          intro hcov
          rw [if_pos hcov] at hnc
          simp [Node.leafValue?] at hnc
        omega
      | branch l r p =>
        exact ((Node.wf_branch_iff l r p cb ce).mp hwf).1
    obtain ⟨hwl, hwr⟩ := wf_children_init_sift op n l2 r2 p2 cb ce hs hwf
    rw [rangeGetImpl_branch_eq op z initG comb b e cb ce n l2 r2 p2 hpre hnc hs,
      if_neg hb, if_neg he]
    rw [Node.wf_branch_iff]
    exact ⟨hce, ihl hwl, ihr hwr⟩
  | case6 cb ce n hnpre =>
    intro hwf
    rw [rangeGetImpl_, dif_neg hnpre]
    exact hwf

/-- The aggregate of a single key of the naive per-key reference. -/
def refPoint (initG : Int → Int → V → G) (f : Int → V) (j : Int) : G :=
  initG j (j + 1) (f j)

/-- Left-to-right per-key aggregation of the naive reference over the
keys `lo, lo+1, …, lo+n` (`n+1` keys). -/
def refAgg (c : G → G → G) (initG : Int → Int → V → G) (f : Int → V)
    (lo : Int) : Nat → G
  | 0 => refPoint initG f lo
  | n + 1 => c (refAgg c initG f lo n) (refPoint initG f (lo + n + 1))

theorem refAgg_congr (c : G → G → G) (initG : Int → Int → V → G)
    (f g : Int → V) (lo : Int) :
    ∀ n : Nat, (∀ j, lo ≤ j → j ≤ lo + n → f j = g j) →
      refAgg c initG f lo n = refAgg c initG g lo n := by
  intro n
  induction n with
  | zero =>
    intro h
    simp only [refAgg, refPoint]
    rw [h lo le_rfl (by omega)]
  | succ m ih =>
    intro h
    simp only [refAgg, refPoint]
    rw [ih (fun j h1 h2 => h j h1 (by omega)),
      h (lo + m + 1) (by omega) (by omega)]

theorem refAgg_split (c : G → G → G) (initG : Int → Int → V → G)
    (f : Int → V) (hassoc : ∀ x y w, c (c x y) w = c x (c y w))
    (lo : Int) (m : Nat) :
    ∀ n : Nat, refAgg c initG f lo (m + n + 1)
      = c (refAgg c initG f lo m) (refAgg c initG f (lo + m + 1) n) := by
  intro n
  induction n with
  | zero => rfl
  | succ k ih =>
    show refAgg c initG f lo ((m + k + 1) + 1) = _
    rw [refAgg, ih, hassoc]
    have harg : lo + ((m : Int) + k + 1) + 1 = (lo + m + 1) + k + 1 := by ring
    rw [show ((m + k + 1 : Nat) : Int) = (m : Int) + k + 1 by push_cast; ring]
    rw [harg]
    rfl

/-- `rangeGetImpl_`, run with a combiner that ignores the border
arguments (the `conc::ValueGetCombiner` specialization, lines 89-95 of
the range-get variation header), computes the left-to-right per-key
fold of the initialized values over the clipped query range — provided
the combiner is associative and the initializer is consistent with it
on uniform spans (§3). -/
theorem rangeGetImpl_fst (op : V → A → V) (z : G) (initG : Int → Int → V → G)
    (comb : G → G → Int → Int → Int → G) (c : G → G → G)
    (hcomb : ∀ x y i j l, comb x y i j l = c x y)
    (hassoc : ∀ x y w, c (c x y) w = c x (c y w))
    (hinit : ∀ (lo : Int) (len : Nat) (v : V),
      initG lo (lo + len + 1) v = refAgg c initG (fun _ => v) lo len)
    (b e : Int) :
    ∀ (cb ce : Int) (n : Node V A),
      n.wf cb ce → cb < ce → cb < e → b < ce → b < e →
      (rangeGetImpl_ op z initG comb b e cb ce n).1
        = refAgg c initG (fun k => n.eval op cb ce k) (max cb b)
            ((min ce e - max cb b - 1).toNat) := by
  intro cb ce n
  induction cb, ce, n using rangeGetImpl_.induct op z initG comb b e with
  | case1 cb ce n hpre v hv =>
    intro hwf hcbce h1 h2 h3
    rw [dite_eq_ite] at hv
    by_cases hcov : e ≥ ce ∧ b ≤ cb
    · rw [if_pos hcov] at hv
      cases n with
      | branch l r p => simp [Node.leafValue?] at hv
      | leaf v2 =>
        simp only [Node.leafValue?, Option.some.injEq] at hv
        subst hv
        rw [rangeGetImpl_leaf_cover op z initG comb b e cb ce v2 hpre hcov]
        have hmax : max cb b = cb := by omega
        have hmin : min ce e = ce := by omega
        rw [hmax, hmin]
        rw [refAgg_congr c initG (fun k => (Node.leaf v2 : Node V A).eval op cb ce k)
          (fun _ => v2) cb ((ce - cb - 1).toNat) (fun j _ _ => rfl)]
        have hlen : ce = cb + ((ce - cb - 1).toNat : Int) + 1 := by omega
        conv_lhs => rw [hlen]
        exact hinit cb ((ce - cb - 1).toNat) v2
    · rw [if_neg hcov] at hv
      cases hv
  | case2 cb ce n hpre hnc v0 hs =>
    exact absurd hs (sift_initChildren_ne_leaf op n v0)
  | case3 cb ce n hpre hnc l2 r2 p2 hs hb ih =>
    intro hwf hcbce h1 h2 h3
    rw [dite_eq_ite] at hnc
    have hce : cb + 2 ≤ ce := by
      cases n with
      | leaf v =>
        have hnotcov : ¬(e ≥ ce ∧ b ≤ cb) := by
          intro hcov
          rw [if_pos hcov] at hnc
          simp [Node.leafValue?] at hnc
        omega
      | branch l r p =>
        exact ((Node.wf_branch_iff l r p cb ce).mp hwf).1
    obtain ⟨hm1, hm2⟩ := mid2_strict cb ce hce
    have hpn : p2 = none := Node.siftOptUpdate_pending_none op _ l2 r2 p2 hs
    subst hpn
    obtain ⟨hwl, hwr⟩ := wf_children_init_sift op n l2 r2 none cb ce hs hwf
    rw [rangeGetImpl_branch_eq op z initG comb b e cb ce n l2 r2 none hpre hnc hs,
      if_pos hb]
    rw [ih hwr (by omega) (by omega) h2 h3]
    have hmb : max (mid2 cb ce) b = b := by omega
    have hcbb : max cb b = b := by omega
    rw [hmb, hcbb]
    apply refAgg_congr
    intro j hj1 hj2
    rw [eval_init_sift op n l2 r2 none hs cb ce j]
    simp only [Node.eval]
    rw [if_pos (show j ≥ mid2 cb ce by omega)]
  | case4 cb ce n hpre hnc l2 r2 p2 hs hb he ih =>
    intro hwf hcbce h1 h2 h3
    rw [dite_eq_ite] at hnc
    have hce : cb + 2 ≤ ce := by
      cases n with
      | leaf v =>
        have hnotcov : ¬(e ≥ ce ∧ b ≤ cb) := by
          intro hcov
          rw [if_pos hcov] at hnc
          simp [Node.leafValue?] at hnc
        omega
      | branch l r p =>
        exact ((Node.wf_branch_iff l r p cb ce).mp hwf).1
    obtain ⟨hm1, hm2⟩ := mid2_strict cb ce hce
    have hpn : p2 = none := Node.siftOptUpdate_pending_none op _ l2 r2 p2 hs
    subst hpn
    obtain ⟨hwl, hwr⟩ := wf_children_init_sift op n l2 r2 none cb ce hs hwf
    rw [rangeGetImpl_branch_eq op z initG comb b e cb ce n l2 r2 none hpre hnc hs,
      if_neg hb, if_pos he]
    rw [ih hwl (by omega) (by omega) (by omega) h3]
    have hminl : min (mid2 cb ce) e = e := by omega
    have hminc : min ce e = e := by omega
    rw [hminl, hminc]
    apply refAgg_congr
    intro j hj1 hj2
    rw [eval_init_sift op n l2 r2 none hs cb ce j]
    simp only [Node.eval]
    rw [if_neg (show ¬(j ≥ mid2 cb ce) by omega)]
  | case5 cb ce n hpre hnc l2 r2 p2 hs hb he ihr ihl =>
    intro hwf hcbce h1 h2 h3
    rw [dite_eq_ite] at hnc
    have hce : cb + 2 ≤ ce := by
      cases n with
      | leaf v =>
        have hnotcov : ¬(e ≥ ce ∧ b ≤ cb) := by
          intro hcov
          rw [if_pos hcov] at hnc
          simp [Node.leafValue?] at hnc
        omega
      | branch l r p =>
        exact ((Node.wf_branch_iff l r p cb ce).mp hwf).1
    obtain ⟨hm1, hm2⟩ := mid2_strict cb ce hce
    have hpn : p2 = none := Node.siftOptUpdate_pending_none op _ l2 r2 p2 hs
    subst hpn
    obtain ⟨hwl, hwr⟩ := wf_children_init_sift op n l2 r2 none cb ce hs hwf
    rw [rangeGetImpl_branch_eq op z initG comb b e cb ce n l2 r2 none hpre hnc hs,
      if_neg hb, if_neg he]
    simp only [hcomb]
    rw [ihl hwl (by omega) (by omega) (by omega) h3,
      ihr hwr (by omega) (by omega) h2 h3]
    have hmaxr : max (mid2 cb ce) b = mid2 cb ce := by omega
    have hminl : min (mid2 cb ce) e = mid2 cb ce := by omega
    rw [hmaxr, hminl]
    have hsplit : (min ce e - max cb b - 1).toNat =
        (mid2 cb ce - max cb b - 1).toNat
          + (min ce e - mid2 cb ce - 1).toNat + 1 := by omega
    rw [hsplit, refAgg_split c initG _ hassoc (max cb b) _ _]
    have harg : max cb b + (((mid2 cb ce - max cb b - 1).toNat : Int)) + 1
        = mid2 cb ce := by omega
    rw [harg]
    congr 1
    · apply refAgg_congr
      intro j hj1 hj2
      rw [eval_init_sift op n l2 r2 none hs cb ce j]
      simp only [Node.eval]
      rw [if_neg (show ¬(j ≥ mid2 cb ce) by omega)]
    · apply refAgg_congr
      intro j hj1 hj2
      rw [eval_init_sift op n l2 r2 none hs cb ce j]
      simp only [Node.eval]
      rw [if_pos (show j ≥ mid2 cb ce by omega)]
  | case6 cb ce n hnpre =>
    intro hwf hcbce h1 h2 h3
    exact absurd ⟨h1, h2, h3⟩ hnpre

/-- The message built by `get` for an out-of-range key
(`dst/dynamic_segment_tree.hpp` lines 310-314): it contains the key but
not the tree's bounds. -/
def outOfRangeMessage (k : Int) : String :=
  "Get operation for " ++ toString k ++ ", which is out of range."

/-- The tree façade (`dst/dynamic_segment_tree.hpp`): root node plus the
working range `[begin_, end_)`. -/
structure DynamicSegmentTree (V A : Type) where
  rootNode_ : Node V A
  begin_ : Int
  end_ : Int
  deriving DecidableEq

namespace DynamicSegmentTree

variable {V A G : Type}

/-- Construction (lines 198-217): a single root leaf holding the fill
value. -/
def make (b e : Int) (v : V) : DynamicSegmentTree V A := ⟨.leaf v, b, e⟩

/-- `set` (lines 276-284): forwards to `setImpl_` on the working range
when `begin < end`, otherwise does nothing. -/
def set (op : V → A → V) (t : DynamicSegmentTree V A) (b e : Int) (v : V) :
    DynamicSegmentTree V A :=
  if b < e then
    { t with rootNode_ := setImpl_ op b e t.begin_ t.end_ t.rootNode_ v }
  else t

/-- Modelled from the spec: the public `update` forwards to `updateImpl_`
of the missing update-variation header; §4.1 specifies `b ≥ e` as a
no-op, and §4.3 gives the recursion the same shape as `set`. -/
def update (op : V → A → V) (t : DynamicSegmentTree V A) (b e : Int) (a : A) :
    DynamicSegmentTree V A :=
  if b < e then
    { t with rootNode_ := updateImpl_ op b e t.begin_ t.end_ t.rootNode_ a }
  else t

/-- `get` (lines 307-316): out-of-range keys raise `std::out_of_range`
with `outOfRangeMessage`; in-range keys walk the (mutable) tree. -/
def get (op : V → A → V) (t : DynamicSegmentTree V A) (k : Int) :
    Except String (V × DynamicSegmentTree V A) :=
  if k ≥ t.end_ ∨ k < t.begin_ then .error (outOfRangeMessage k)
  else
    .ok ((getImpl_ op k t.begin_ t.end_ t.rootNode_).1,
      { t with rootNode_ := (getImpl_ op k t.begin_ t.end_ t.rootNode_).2 })

/-- `rangeGet` (lines 318-331). -/
def rangeGet (op : V → A → V) (z : G) (initG : Int → Int → V → G)
    (comb : G → G → Int → Int → Int → G) (t : DynamicSegmentTree V A)
    (b e : Int) : G × DynamicSegmentTree V A :=
  ((rangeGetImpl_ op z initG comb b e t.begin_ t.end_ t.rootNode_).1,
    { t with
      rootNode_ := (rangeGetImpl_ op z initG comb b e t.begin_ t.end_ t.rootNode_).2 })

end DynamicSegmentTree

/-- One public call on the tree. -/
inductive Op (V A : Type) where
  | set (b e : Int) (v : V)
  | update (b e : Int) (a : A)
  | get (k : Int)
  | rangeGet (b e : Int)
  deriving DecidableEq

/-- In-contract condition of a call on a tree over `[b0, e0)`: `set` and
`update` are either empty (`b ≥ e`, a documented no-op) or overlap the
working range (the recursion core asserts real overlap); `get` may use
any key (out-of-range keys raise a defined error); `rangeGet` requires a
nonempty contained range (§4.1 leaves anything else undefined). -/
def Op.inContract {V A : Type} (b0 e0 : Int) : Op V A → Prop
  | .set b e _ => e ≤ b ∨ (b0 < e ∧ b < e0)
  | .update b e _ => e ≤ b ∨ (b0 < e ∧ b < e0)
  | .get _ => True
  | .rangeGet b e => b0 ≤ b ∧ b < e ∧ e ≤ e0

instance {V A : Type} (b0 e0 : Int) (o : Op V A) :
    Decidable (o.inContract b0 e0) := by
  cases o <;> simp only [Op.inContract] <;> infer_instance

/-- Run one call against the tree, keeping the (possibly sifted /
materialized) tree state. -/
def runOp (op : V → A → V) (z : G) (initG : Int → Int → V → G)
    (comb : G → G → Int → Int → Int → G) (t : DynamicSegmentTree V A) :
    Op V A → DynamicSegmentTree V A
  | .set b e v => t.set op b e v
  | .update b e a => t.update op b e a
  | .get k =>
    match t.get op k with
    | .ok res => res.2
    | .error _ => t
  | .rangeGet b e => (t.rangeGet op z initG comb b e).2

/-- Run a sequence of calls. -/
def run (op : V → A → V) (z : G) (initG : Int → Int → V → G)
    (comb : G → G → Int → Int → Int → G) (t : DynamicSegmentTree V A) :
    List (Op V A) → DynamicSegmentTree V A
  | [] => t
  | o :: rest => run op z initG comb (runOp op z initG comb t o) rest

/-- The naive per-key reference: `set` assigns `v` to each key of
`[b, e)`, `update` applies the operator pointwise there, queries leave
the store unchanged. -/
def refApplyOp (op : V → A → V) (f : Int → V) : Op V A → Int → V
  | .set b e v, k => if b ≤ k ∧ k < e then v else f k
  | .update b e a, k => if b ≤ k ∧ k < e then op (f k) a else f k
  | .get _, k => f k
  | .rangeGet _ _, k => f k

/-- The reference store after a sequence of calls. -/
def refRun (op : V → A → V) (f : Int → V) : List (Op V A) → Int → V
  | [] => f
  | o :: rest => refRun op (refApplyOp op f o) rest

theorem refRun_congr (op : V → A → V) :
    ∀ (ops : List (Op V A)) (f g : Int → V) (k : Int),
      f k = g k → refRun op f ops k = refRun op g ops k := by
  intro ops
  induction ops with
  | nil => intro f g k h; exact h
  | cons o rest ih =>
    intro f g k h
    simp only [refRun]
    apply ih
    cases o <;> simp only [refApplyOp] <;> rw [h]

theorem runOp_bounds (op : V → A → V) (z : G) (initG : Int → Int → V → G)
    (comb : G → G → Int → Int → Int → G) (t : DynamicSegmentTree V A)
    (o : Op V A) :
    (runOp op z initG comb t o).begin_ = t.begin_ ∧
    (runOp op z initG comb t o).end_ = t.end_ := by
  cases o with
  | set b e v =>
    simp only [runOp, DynamicSegmentTree.set]
    split <;> exact ⟨rfl, rfl⟩
  | update b e a =>
    simp only [runOp, DynamicSegmentTree.update]
    split <;> exact ⟨rfl, rfl⟩
  | get k =>
    simp only [runOp, DynamicSegmentTree.get]
    split
    · rename_i res heq
      split at heq
      · cases heq
      · cases heq
        exact ⟨rfl, rfl⟩
    · exact ⟨rfl, rfl⟩
  | rangeGet b e => exact ⟨rfl, rfl⟩

theorem run_bounds (op : V → A → V) (z : G) (initG : Int → Int → V → G)
    (comb : G → G → Int → Int → Int → G) :
    ∀ (ops : List (Op V A)) (t : DynamicSegmentTree V A),
      (run op z initG comb t ops).begin_ = t.begin_ ∧
      (run op z initG comb t ops).end_ = t.end_ := by
  intro ops
  induction ops with
  | nil => intro t; exact ⟨rfl, rfl⟩
  | cons o rest ih =>
    intro t
    have h1 := runOp_bounds op z initG comb t o
    have h2 := ih (runOp op z initG comb t o)
    simp only [run]
    omega

/-- One call keeps the tree's denotation in step with the reference. -/
theorem runOp_eval (op : V → A → V) (z : G) (initG : Int → Int → V → G)
    (comb : G → G → Int → Int → Int → G) (b0 e0 : Int)
    (t : DynamicSegmentTree V A) (o : Op V A)
    (hb : t.begin_ = b0) (he : t.end_ = e0)
    (hic : o.inContract b0 e0) (k : Int) (hk1 : b0 ≤ k) (hk2 : k < e0) :
    ((runOp op z initG comb t o).rootNode_).eval op b0 e0 k
      = refApplyOp op (fun j => t.rootNode_.eval op b0 e0 j) o k := by
  cases o with
  | set b e v =>
    simp only [runOp, DynamicSegmentTree.set, refApplyOp]
    by_cases hbe : b < e
    · rw [if_pos hbe]
      simp only [hb, he]
      rcases hic with h | h
      · omega
      · exact eval_setImpl op b e b0 e0 t.rootNode_ v h.1 h.2 hbe k hk1 hk2
    · rw [if_neg hbe, if_neg (show ¬(b ≤ k ∧ k < e) by omega)]
  | update b e a =>
    simp only [runOp, DynamicSegmentTree.update, refApplyOp]
    by_cases hbe : b < e
    · rw [if_pos hbe]
      simp only [hb, he]
      rcases hic with h | h
      · omega
      · exact eval_updateImpl op b e b0 e0 t.rootNode_ a h.1 h.2 hbe k hk1 hk2
    · rw [if_neg hbe, if_neg (show ¬(b ≤ k ∧ k < e) by omega)]
  | get kq =>
    simp only [runOp, DynamicSegmentTree.get, refApplyOp]
    split
    · rename_i res heq
      split at heq
      · cases heq
      · cases heq
        simp only [hb, he]
        exact eval_getImpl_snd op kq b0 e0 t.rootNode_ k
    · rfl
  | rangeGet b e =>
    simp only [runOp, DynamicSegmentTree.rangeGet, refApplyOp]
    simp only [hb, he]
    exact eval_rangeGetImpl_snd op z initG comb b e b0 e0 t.rootNode_ k

/-- The central refinement invariant: after any in-contract sequence of
calls, the tree's denotation agrees with the naive per-key reference on
every key of the working range. -/
theorem run_eval (op : V → A → V) (z : G) (initG : Int → Int → V → G)
    (comb : G → G → Int → Int → Int → G) (b0 e0 : Int) :
    ∀ (ops : List (Op V A)) (t : DynamicSegmentTree V A),
      t.begin_ = b0 → t.end_ = e0 →
      (∀ o ∈ ops, o.inContract b0 e0) →
      ∀ k, b0 ≤ k → k < e0 →
      ((run op z initG comb t ops).rootNode_).eval op b0 e0 k
        = refRun op (fun j => t.rootNode_.eval op b0 e0 j) ops k := by
  intro ops
  induction ops with
  | nil =>
    intro t hb he hic k hk1 hk2
    rfl
  | cons o rest ih =>
    intro t hb he hic k hk1 hk2
    simp only [run, refRun]
    have hob := runOp_bounds op z initG comb t o
    rw [ih (runOp op z initG comb t o) (by omega) (by omega)
      (fun o2 h2 => hic o2 (List.mem_cons_of_mem o h2)) k hk1 hk2]
    exact refRun_congr op rest _ _ k
      (runOp_eval op z initG comb b0 e0 t o hb he
        (hic o (List.mem_cons_self o rest)) k hk1 hk2)

/-- Running calls keeps the tree span-well-formed. -/
theorem wf_run (op : V → A → V) (z : G) (initG : Int → Int → V → G)
    (comb : G → G → Int → Int → Int → G) (b0 e0 : Int) :
    ∀ (ops : List (Op V A)) (t : DynamicSegmentTree V A),
      t.begin_ = b0 → t.end_ = e0 → t.rootNode_.wf b0 e0 →
      ((run op z initG comb t ops).rootNode_).wf b0 e0 := by
  intro ops
  induction ops with
  | nil => intro t hb he hwf; exact hwf
  | cons o rest ih =>
    intro t hb he hwf
    have hob := runOp_bounds op z initG comb t o
    refine ih (runOp op z initG comb t o) (by omega) (by omega) ?_
    cases o with
    | set b e v =>
      simp only [runOp, DynamicSegmentTree.set]
      split
      · simp only [hb, he]
        exact wf_setImpl op b e b0 e0 t.rootNode_ v hwf
      · exact hwf
    | update b e a =>
      simp only [runOp, DynamicSegmentTree.update]
      split
      · simp only [hb, he]
        exact wf_updateImpl op b e b0 e0 t.rootNode_ a hwf
      · exact hwf
    | get kq =>
      simp only [runOp, DynamicSegmentTree.get]
      split
      · rename_i res heq
        split at heq
        · cases heq
        · cases heq
          simp only [hb, he]
          exact wf_getImpl_snd op kq b0 e0 t.rootNode_ hwf
      · exact hwf
    | rangeGet b e =>
      simp only [runOp, DynamicSegmentTree.rangeGet]
      simp only [hb, he]
      exact wf_rangeGetImpl_snd op z initG comb b e b0 e0 t.rootNode_ hwf

/-- Modelled from the spec: the legacy header's `node.hpp` is not among
the sources.  Its `siftDown` materializes the children of a leaf (the
legacy recursion calls `siftDown` and then immediately takes children,
with no separate `init_children` step) and pushes a pending update
argument into both children, clearing the slot (§4.2 `sift`, §3
lifecycle). -/
def lsiftDown (op : V → A → V) : Node V A → Node V A
  | .leaf v => .branch (.leaf v) (.leaf v) none
  | .branch l r (some a) => .branch (l.update op a) (r.update op a) none
  | .branch l r none => .branch l r none

theorem lsiftDown_ne_leaf (op : V → A → V) (n : Node V A) (v0 : V) :
    lsiftDown op n ≠ .leaf v0 := by
  cases n with
  | leaf v => simp [lsiftDown]
  | branch l r p => cases p <;> simp [lsiftDown]

theorem lsiftDown_pending_none (op : V → A → V) (n : Node V A)
    (l2 r2 : Node V A) (p2 : Option A) :
    lsiftDown op n = .branch l2 r2 p2 → p2 = none := by
  cases n with
  | leaf v => intro h; cases h; rfl
  | branch l r p =>
    cases p with
    | none => intro h; cases h; rfl
    | some a => intro h; cases h; rfl

theorem eval_lsiftDown (op : V → A → V) (n : Node V A) (cb ce k : Int) :
    (lsiftDown op n).eval op cb ce k = n.eval op cb ce k := by
  cases n with
  | leaf v => simp only [lsiftDown, Node.eval]; split <;> rfl
  | branch l r p =>
    cases p with
    | none => rfl
    | some a =>
      simp only [lsiftDown, Node.eval, Node.eval_update]
      split <;> rfl

theorem eval_lsift_eq (op : V → A → V) (n l2 r2 : Node V A) (p2 : Option A)
    (hs : lsiftDown op n = .branch l2 r2 p2) (cb ce k : Int) :
    n.eval op cb ce k = (Node.branch l2 r2 p2).eval op cb ce k := by
  rw [← hs, eval_lsiftDown]

theorem size_lsiftDown_branch (op : V → A → V) (l r : Node V A)
    (p : Option A) :
    (lsiftDown op (Node.branch l r p)).size = (Node.branch l r p).size := by
  cases p <;> simp [lsiftDown, Node.size, Node.size_update op]

/-- `_setImpl` (`include/dynamic_segment_tree.hpp` lines 178-199), the
legacy assignment recursion, with the right-branch guard
`currEnd >= begin + 1` exactly as in the source. -/
def legacySetImpl (op : V → A → V) (b e : Int) :
    Int → Int → Node V A → V → Node V A
  | cb, ce, n, v =>
    if hen : b ≥ ce ∨ cb ≥ e then n
    else if hcov : e ≥ ce ∧ b ≤ cb then n.setValue v
    else
      match hs : lsiftDown op n with
      | .leaf v0 => .leaf v0
      | .branch l2 r2 p2 =>
          let l3 := if mid2 cb ce ≥ cb + 1 then
              legacySetImpl op b e cb (mid2 cb ce) l2 v else l2
          let r3 := if ce ≥ b + 1 then
              legacySetImpl op b e (mid2 cb ce) ce r2 v else r2
          .branch l3 r3 p2
termination_by cb ce n v => (ce - cb).toNat
decreasing_by
  all_goals
    have hce : cb + 2 ≤ ce := by omega
    have hm := mid2_strict cb ce hce
    omega

/-- The same recursion with the corrected guards `mid > begin` for the
left branch and `mid < end` for the right branch — the form used in
`dst/dynamic_segment_tree.hpp` (lines 357-362). -/
def legacySetImplCorrected (op : V → A → V) (b e : Int) :
    Int → Int → Node V A → V → Node V A
  | cb, ce, n, v =>
    if hen : b ≥ ce ∨ cb ≥ e then n
    else if hcov : e ≥ ce ∧ b ≤ cb then n.setValue v
    else
      match hs : lsiftDown op n with
      | .leaf v0 => .leaf v0
      | .branch l2 r2 p2 =>
          let l3 := if mid2 cb ce > b then
              legacySetImplCorrected op b e cb (mid2 cb ce) l2 v else l2
          let r3 := if mid2 cb ce < e then
              legacySetImplCorrected op b e (mid2 cb ce) ce r2 v else r2
          .branch l3 r3 p2
termination_by cb ce n v => (ce - cb).toNat
decreasing_by
  all_goals
    have hce : cb + 2 ≤ ce := by omega
    have hm := mid2_strict cb ce hce
    omega

/-- `_updateImpl` (`include/dynamic_segment_tree.hpp` lines 149-170). -/
def legacyUpdateImpl (op : V → A → V) (b e : Int) :
    Int → Int → Node V A → A → Node V A
  | cb, ce, n, a =>
    if hen : b ≥ ce ∨ cb ≥ e then n
    else if hcov : e ≥ ce ∧ b ≤ cb then n.update op a
    else
      match hs : lsiftDown op n with
      | .leaf v0 => .leaf v0
      | .branch l2 r2 p2 =>
          let l3 := if mid2 cb ce ≥ cb + 1 then
              legacyUpdateImpl op b e cb (mid2 cb ce) l2 a else l2
          let r3 := if ce ≥ mid2 cb ce + 1 then
              legacyUpdateImpl op b e (mid2 cb ce) ce r2 a else r2
          .branch l3 r3 p2
termination_by cb ce n a => (ce - cb).toNat
decreasing_by
  all_goals
    have hce : cb + 2 ≤ ce := by omega
    have hm := mid2_strict cb ce hce
    omega

/-- `_getImpl` (`include/dynamic_segment_tree.hpp` lines 201-222). -/
def legacyGetImpl (op : V → A → V) (k : Int) :
    Int → Int → Node V A → V × Node V A
  | _, _, .leaf v => (v, .leaf v)
  | cb, ce, .branch l r p =>
    match hs : lsiftDown op (.branch l r p) with
    | .leaf v0 => (v0, .leaf v0)
    | .branch l2 r2 p2 =>
        if k ≥ mid2 cb ce then
          ((legacyGetImpl op k (mid2 cb ce) ce r2).1,
            .branch l2 (legacyGetImpl op k (mid2 cb ce) ce r2).2 p2)
        else
          ((legacyGetImpl op k cb (mid2 cb ce) l2).1,
            .branch (legacyGetImpl op k cb (mid2 cb ce) l2).2 r2 p2)
termination_by cb ce n => n.size
decreasing_by
  all_goals
    have hsz := size_lsiftDown_branch op l r p
    rw [hs] at hsz
    simp only [Node.size] at hsz
    have h1 := Node.size_pos l2
    have h2 := Node.size_pos r2
    simp only [Node.size]
    omega

/-- The legacy tree façade (`include/dynamic_segment_tree.hpp`). -/
structure LegacyDynamicSegmentTree (V A : Type) where
  rootNodeL : Node V A
  beginL : Int
  endL : Int
  deriving DecidableEq

/-- Legacy `get` (lines 116-129): an out-of-range key returns a
value-initialized `ValueT{}` — modelled by the parameter `z` — without
touching the tree; no error is raised. -/
def LegacyDynamicSegmentTree.get (op : V → A → V) (z : V)
    (t : LegacyDynamicSegmentTree V A) (k : Int) :
    V × LegacyDynamicSegmentTree V A :=
  if k ≥ t.endL ∨ k < t.beginL then (z, t)
  else
    ((legacyGetImpl op k t.beginL t.endL t.rootNodeL).1,
      { t with rootNodeL := (legacyGetImpl op k t.beginL t.endL t.rootNodeL).2 })

theorem legacySetImpl_branch_eq (op : V → A → V) (b e cb ce : Int)
    (n : Node V A) (v : V) (l2 r2 : Node V A) (p2 : Option A)
    (hen : ¬(b ≥ ce ∨ cb ≥ e)) (hcov : ¬(e ≥ ce ∧ b ≤ cb))
    (hs : lsiftDown op n = .branch l2 r2 p2) :
    legacySetImpl op b e cb ce n v =
      .branch
        (if mid2 cb ce ≥ cb + 1 then
          legacySetImpl op b e cb (mid2 cb ce) l2 v else l2)
        (if ce ≥ b + 1 then
          legacySetImpl op b e (mid2 cb ce) ce r2 v else r2)
        p2 := by
  conv_lhs => rw [legacySetImpl]
  rw [dif_neg hen, dif_neg hcov]
  split
  · rename_i v0 heq
    rw [hs] at heq
    cases heq
  · rename_i l3 r3 p3 heq
    rw [hs] at heq
    injection heq with h1 h2 h3
    subst h1; subst h2; subst h3
    rfl

theorem legacySetImplCorrected_branch_eq (op : V → A → V) (b e cb ce : Int)
    (n : Node V A) (v : V) (l2 r2 : Node V A) (p2 : Option A)
    (hen : ¬(b ≥ ce ∨ cb ≥ e)) (hcov : ¬(e ≥ ce ∧ b ≤ cb))
    (hs : lsiftDown op n = .branch l2 r2 p2) :
    legacySetImplCorrected op b e cb ce n v =
      .branch
        (if mid2 cb ce > b then
          legacySetImplCorrected op b e cb (mid2 cb ce) l2 v else l2)
        (if mid2 cb ce < e then
          legacySetImplCorrected op b e (mid2 cb ce) ce r2 v else r2)
        p2 := by
  conv_lhs => rw [legacySetImplCorrected]
  rw [dif_neg hen, dif_neg hcov]
  split
  · rename_i v0 heq
    rw [hs] at heq
    cases heq
  · rename_i l3 r3 p3 heq
    rw [hs] at heq
    injection heq with h1 h2 h3
    subst h1; subst h2; subst h3
    rfl

theorem legacyUpdateImpl_branch_eq (op : V → A → V) (b e cb ce : Int)
    (n : Node V A) (a : A) (l2 r2 : Node V A) (p2 : Option A)
    (hen : ¬(b ≥ ce ∨ cb ≥ e)) (hcov : ¬(e ≥ ce ∧ b ≤ cb))
    (hs : lsiftDown op n = .branch l2 r2 p2) :
    legacyUpdateImpl op b e cb ce n a =
      .branch
        (if mid2 cb ce ≥ cb + 1 then
          legacyUpdateImpl op b e cb (mid2 cb ce) l2 a else l2)
        (if ce ≥ mid2 cb ce + 1 then
          legacyUpdateImpl op b e (mid2 cb ce) ce r2 a else r2)
        p2 := by
  conv_lhs => rw [legacyUpdateImpl]
  rw [dif_neg hen, dif_neg hcov]
  split
  · rename_i v0 heq
    rw [hs] at heq
    cases heq
  · rename_i l3 r3 p3 heq
    rw [hs] at heq
    injection heq with h1 h2 h3
    subst h1; subst h2; subst h3
    rfl

/-- The legacy `_setImpl`, with its source guard `currEnd >= begin + 1`,
implements pointwise range assignment. -/
theorem eval_legacySetImpl (op : V → A → V) (b e : Int) :
    ∀ (cb ce : Int) (n : Node V A) (v : V) (k : Int),
      cb ≤ k → k < ce →
      (legacySetImpl op b e cb ce n v).eval op cb ce k
        = if b ≤ k ∧ k < e then v else n.eval op cb ce k := by
  intro cb ce n v
  induction cb, ce, n, v using legacySetImpl.induct op b e with
  | case1 cb ce n v hen =>
    intro k hk1 hk2
    rw [legacySetImpl, dif_pos hen, if_neg (by omega)]
  | case2 cb ce n v hen hcov =>
    intro k hk1 hk2
    rw [legacySetImpl, dif_neg hen, dif_pos hcov, if_pos (by omega)]
    rfl
  | case3 cb ce n v hen hcov v0 hs =>
    exact absurd hs (lsiftDown_ne_leaf op n v0)
  | case4 cb ce n v hen hcov l2 r2 p2 hs ihl ihr =>
    intro k hk1 hk2
    have hce : cb + 2 ≤ ce := by omega
    obtain ⟨hm1, hm2⟩ := mid2_strict cb ce hce
    have hpn := lsiftDown_pending_none op n l2 r2 p2 hs
    subst hpn
    rw [legacySetImpl_branch_eq op b e cb ce n v l2 r2 none hen hcov hs]
    rw [eval_lsift_eq op n l2 r2 none hs cb ce k]
    by_cases hk : k ≥ mid2 cb ce
    · simp only [Node.eval, if_pos hk]
      rw [if_pos (show ce ≥ b + 1 by omega)]
      exact ihr k hk hk2
    · simp only [Node.eval, if_neg hk]
      rw [if_pos (show mid2 cb ce ≥ cb + 1 by omega)]
      exact ihl (by omega) k hk1 (by omega)

/-- The corrected recursion implements the same pointwise range
assignment. -/
theorem eval_legacySetImplCorrected (op : V → A → V) (b e : Int) :
    ∀ (cb ce : Int) (n : Node V A) (v : V) (k : Int),
      cb ≤ k → k < ce →
      (legacySetImplCorrected op b e cb ce n v).eval op cb ce k
        = if b ≤ k ∧ k < e then v else n.eval op cb ce k := by
  intro cb ce n v
  induction cb, ce, n, v using legacySetImplCorrected.induct op b e with
  | case1 cb ce n v hen =>
    intro k hk1 hk2
    rw [legacySetImplCorrected, dif_pos hen, if_neg (by omega)]
  | case2 cb ce n v hen hcov =>
    intro k hk1 hk2
    rw [legacySetImplCorrected, dif_neg hen, dif_pos hcov, if_pos (by omega)]
    rfl
  | case3 cb ce n v hen hcov v0 hs =>
    exact absurd hs (lsiftDown_ne_leaf op n v0)
  | case4 cb ce n v hen hcov l2 r2 p2 hs ihl ihr =>
    intro k hk1 hk2
    have hce : cb + 2 ≤ ce := by omega
    obtain ⟨hm1, hm2⟩ := mid2_strict cb ce hce
    have hpn := lsiftDown_pending_none op n l2 r2 p2 hs
    subst hpn
    rw [legacySetImplCorrected_branch_eq op b e cb ce n v l2 r2 none hen hcov hs]
    rw [eval_lsift_eq op n l2 r2 none hs cb ce k]
    by_cases hk : k ≥ mid2 cb ce
    · simp only [Node.eval, if_pos hk]
      by_cases hre : mid2 cb ce < e
      · rw [if_pos hre]
        exact ihr k hk hk2
      · rw [if_neg hre, if_neg (by omega)]
    · simp only [Node.eval, if_neg hk]
      by_cases hlb : mid2 cb ce > b
      · rw [if_pos hlb]
        exact ihl k hk1 (by omega)
      · rw [if_neg hlb, if_neg (by omega)]

/-- The legacy `_updateImpl` called with an empty range `b ≥ e` never
reaches its covering case, so no key's value changes (it may still
split nodes along one path). -/
theorem eval_legacyUpdateImpl_empty (op : V → A → V) (b e : Int)
    (hbe : e ≤ b) :
    ∀ (cb ce : Int) (n : Node V A) (a : A) (k : Int),
      cb ≤ k → k < ce →
      (legacyUpdateImpl op b e cb ce n a).eval op cb ce k
        = n.eval op cb ce k := by
  intro cb ce n a
  induction cb, ce, n, a using legacyUpdateImpl.induct op b e with
  | case1 cb ce n a hen =>
    intro k hk1 hk2
    rw [legacyUpdateImpl, dif_pos hen]
  | case2 cb ce n a hen hcov =>
    exfalso
    omega
  | case3 cb ce n a hen hcov v0 hs =>
    exact absurd hs (lsiftDown_ne_leaf op n v0)
  | case4 cb ce n a hen hcov l2 r2 p2 hs ihl ihr =>
    intro k hk1 hk2
    have hce : cb + 2 ≤ ce := by omega
    obtain ⟨hm1, hm2⟩ := mid2_strict cb ce hce
    have hpn := lsiftDown_pending_none op n l2 r2 p2 hs
    subst hpn
    rw [legacyUpdateImpl_branch_eq op b e cb ce n a l2 r2 none hen hcov hs]
    rw [eval_lsift_eq op n l2 r2 none hs cb ce k]
    by_cases hk : k ≥ mid2 cb ce
    · simp only [Node.eval, if_pos hk]
      by_cases hg : ce ≥ mid2 cb ce + 1
      · rw [if_pos hg]
        exact ihr hg k hk hk2
      · rw [if_neg hg]
    · simp only [Node.eval, if_neg hk]
      by_cases hg : mid2 cb ce ≥ cb + 1
      · rw [if_pos hg]
        exact ihl hg k hk1 (by omega)
      · rw [if_neg hg]

/-- A slot of the two-node allocation during `initChildrenSiftingValue`:
whether the node object has been constructed and whether its value
buffer holds a constructed value. -/
structure RawChild (V : Type) where
  constructed : Bool
  value : Option V
  deriving DecidableEq

/-- The memory-relevant state of a node running
`initChildrenSiftingValue`: the value in the node's own buffer and the
two-node allocation `ptr` points to (`none` models `ptr == nullptr`,
i.e. the leaf state with the allocation returned). -/
structure RawNodeState (V : Type) where
  parentValue : Option V
  alloc : Option (RawChild V × RawChild V)
  deriving DecidableEq

/-- The state of a leaf holding `v`. -/
def leafState (v : V) : RawNodeState V := ⟨some v, none⟩

/-- `initChildrenSiftingValue` (`node_base.hpp` lines 146-176) with
failure injection: `failAlloc` — the pair allocation throws;
`failLeftCopy` — copy-constructing the left child's value from the
parent's value throws; `failRightCtor` — constructing the right child's
value throws.  An `Except.error` result carries the node state left
behind by the catch handlers while the exception propagates; `Except.ok`
carries the state on normal return.  The move of the parent value into
the right child is modelled as a non-destructive read. -/
def initChildrenSiftingValue (failAlloc failLeftCopy failRightCtor : Bool)
    (v : V) : Except (RawNodeState V) (RawNodeState V) :=
  if failAlloc then
    -- `AllocTraits_::allocate(allocator, 2)` throws before `ptr` is
    -- assigned: the node state is untouched
    .error ⟨some v, none⟩
  else
    -- `ptr = nodesPtr; std::construct_at(getLeft())`
    let s1 : RawNodeState V := ⟨some v, some (⟨true, none⟩, ⟨false, none⟩)⟩
    if failLeftCopy then
      -- catch: `destroy_at(getLeft())`, `deallocate(ptr, 2)`,
      -- `ptr = nullptr`, rethrow
      .error ⟨s1.parentValue, none⟩
    else
      -- `construct_at(getLeft()->getValuePtr(), getValue())`,
      -- then `construct_at(getRight())`
      let s2 : RawNodeState V := ⟨s1.parentValue, some (⟨true, some v⟩, ⟨true, none⟩)⟩
      if failRightCtor then
        -- catch: destroy the left value, the left node, the right node,
        -- `deallocate(ptr, 2)`, `ptr = nullptr`, rethrow
        .error ⟨s2.parentValue, none⟩
      else
        -- construct the right value from the parent value, then
        -- `destroy_at(getValuePtr())`
        .ok ⟨none, some (⟨true, some v⟩, ⟨true, some v⟩)⟩

/-- Concrete operator and sum-tree configuration used by the witnesses. -/
def intAdd : Int → Int → Int := fun x y => x + y

/-- Sum-tree combiner for plain aggregates. -/
def addG : Int → Int → Int := fun x y => x + y

/-- Sum-tree segment initializer: `v * (hi - lo)` (the `v * length`
initializer of §6). -/
def sumInitG : Int → Int → Int → Int := fun lo hi v => v * (hi - lo)

/-- Sum-tree five-argument combiner as stored by the combine variation
base: ignores the border arguments. -/
def sumCombG : Int → Int → Int → Int → Int → Int := fun x y _ _ _ => x + y

theorem sumCombG_eq_addG (x y i j l : Int) : sumCombG x y i j l = addG x y := rfl

theorem addG_assoc (x y w : Int) : addG (addG x y) w = addG x (addG y w) := by
  simp [addG]
  ring

theorem sumInitG_consistent : ∀ (lo : Int) (len : Nat) (v : Int),
    sumInitG lo (lo + len + 1) v = refAgg addG sumInitG (fun _ => v) lo len := by
  intro lo len
  induction len generalizing lo with
  | zero =>
    intro v
    simp [sumInitG, refAgg, refPoint]
  | succ m ih =>
    intro v
    rw [refAgg, ← ih lo v]
    simp only [sumInitG, refPoint, addG]
    push_cast
    ring

/-- Claim C1: for every construction `[begin, end)` with fill `v₀` and
every in-contract sequence of `set` / `update` / `get` / `rangeGet`
calls, `get k` on an in-range key returns exactly the value of a naive
per-key reference that applies `set` and `update` pointwise. -/
theorem claim1_get_refines_reference {V A G : Type} (op : V → A → V) (z : G)
    (initG : Int → Int → V → G) (comb : G → G → Int → Int → Int → G)
    (b0 e0 : Int) (v0 : V) (ops : List (Op V A)) (k : Int)
    (hic : ∀ o ∈ ops, o.inContract b0 e0)
    (hk1 : b0 ≤ k) (hk2 : k < e0) :
    ∃ t2, (run op z initG comb (DynamicSegmentTree.make b0 e0 v0) ops).get op k
      = .ok (refRun op (fun _ => v0) ops k, t2) := by
  have hbounds := run_bounds op z initG comb ops
    (DynamicSegmentTree.make b0 e0 v0)
  have hb : (run op z initG comb (DynamicSegmentTree.make b0 e0 v0) ops).begin_ = b0 :=
    hbounds.1
  have he : (run op z initG comb (DynamicSegmentTree.make b0 e0 v0) ops).end_ = e0 :=
    hbounds.2
  have h1 : (getImpl_ op k
      (run op z initG comb (DynamicSegmentTree.make b0 e0 v0) ops).begin_
      (run op z initG comb (DynamicSegmentTree.make b0 e0 v0) ops).end_
      (run op z initG comb (DynamicSegmentTree.make b0 e0 v0) ops).rootNode_).1
      = refRun op (fun _ => v0) ops k := by
    rw [getImpl_fst, hb, he]
    rw [run_eval op z initG comb b0 e0 ops (DynamicSegmentTree.make b0 e0 v0)
      rfl rfl hic k hk1 hk2]
    exact refRun_congr op ops _ _ k rfl
  refine ⟨{ run op z initG comb (DynamicSegmentTree.make b0 e0 v0) ops with
    rootNode_ := (getImpl_ op k
      (run op z initG comb (DynamicSegmentTree.make b0 e0 v0) ops).begin_
      (run op z initG comb (DynamicSegmentTree.make b0 e0 v0) ops).end_
      (run op z initG comb (DynamicSegmentTree.make b0 e0 v0) ops).rootNode_).2 }, ?_⟩
  unfold DynamicSegmentTree.get
  rw [if_neg (by omega), h1]

/-- Claim C2: with an associative combiner (the borders-insensitive
form) and an initializer consistent with it on uniform spans, every
in-contract `rangeGet (b, e)` after an in-contract call sequence
returns the left-to-right fold by the combiner of the per-key
initialized reference values of `[b, e)`. -/
theorem claim2_rangeGet_folds_reference {V A G : Type} (op : V → A → V)
    (z : G) (initG : Int → Int → V → G) (comb : G → G → Int → Int → Int → G)
    (c : G → G → G) (b0 e0 : Int) (v0 : V) (ops : List (Op V A)) (b e : Int)
    (hcomb : ∀ x y i j l, comb x y i j l = c x y)
    (hassoc : ∀ x y w, c (c x y) w = c x (c y w))
    (hinit : ∀ (lo : Int) (len : Nat) (v : V),
      initG lo (lo + len + 1) v = refAgg c initG (fun _ => v) lo len)
    (hic : ∀ o ∈ ops, o.inContract b0 e0)
    (hb : b0 ≤ b) (hbe : b < e) (he : e ≤ e0) :
    ((run op z initG comb (DynamicSegmentTree.make b0 e0 v0) ops).rangeGet
        op z initG comb b e).1
      = refAgg c initG (refRun op (fun _ => v0) ops) b ((e - b - 1).toNat) := by
  have hbounds := run_bounds op z initG comb ops
    (DynamicSegmentTree.make b0 e0 v0)
  have hwf : ((run op z initG comb (DynamicSegmentTree.make b0 e0 v0)
      ops).rootNode_).wf b0 e0 :=
    wf_run op z initG comb b0 e0 ops (DynamicSegmentTree.make b0 e0 v0)
      rfl rfl (Node.wf_leaf v0 b0 e0)
  have hbb : (run op z initG comb (DynamicSegmentTree.make b0 e0 v0) ops).begin_ = b0 :=
    hbounds.1
  have hee : (run op z initG comb (DynamicSegmentTree.make b0 e0 v0) ops).end_ = e0 :=
    hbounds.2
  unfold DynamicSegmentTree.rangeGet
  simp only [hbb, hee]
  rw [rangeGetImpl_fst op z initG comb c hcomb hassoc hinit b e b0 e0
    _ hwf (by omega) (by omega) (by omega) hbe]
  rw [show max b0 b = b by omega, show min e0 e = e by omega]
  apply refAgg_congr
  intro j hj1 hj2
  rw [run_eval op z initG comb b0 e0 ops (DynamicSegmentTree.make b0 e0 v0)
    rfl rfl hic j (by omega) (by omega)]
  exact refRun_congr op ops _ _ j rfl

/-- Claim C3 (amended): `get k` fails exactly when `k < begin` or
`k ≥ end` and returns a value exactly when `begin ≤ k < end`; the error
is the out-of-range message, which carries the offending key — but not
the tree's bounds. -/
theorem claim3_get_error_exactly_out_of_range {V A : Type} (op : V → A → V)
    (t : DynamicSegmentTree V A) (k : Int) :
    (t.get op k = .error (outOfRangeMessage k) ↔ k < t.begin_ ∨ t.end_ ≤ k)
    ∧ ((∃ v t2, t.get op k = .ok (v, t2)) ↔ t.begin_ ≤ k ∧ k < t.end_)
    ∧ (∃ pre post : String,
        outOfRangeMessage k = pre ++ toString k ++ post) := by
  refine ⟨?_, ?_, "Get operation for ", ", which is out of range.", rfl⟩
  · unfold DynamicSegmentTree.get
    by_cases h : k ≥ t.end_ ∨ k < t.begin_
    · rw [if_pos h]
      exact ⟨fun _ => by omega, fun _ => rfl⟩
    · rw [if_neg h]
      constructor
      · intro hh
        cases hh
      · intro hh
        omega
  · unfold DynamicSegmentTree.get
    by_cases h : k ≥ t.end_ ∨ k < t.begin_
    · rw [if_pos h]
      constructor
      · rintro ⟨v, t2, hv⟩
        cases hv
      · intro hh
        omega
    · rw [if_neg h]
      exact ⟨fun _ => by omega, fun _ => ⟨_, _, rfl⟩⟩

/-- Counterexample for Claim C3 as stated: trees with different bounds
produce the very same error for the same out-of-range key, so the error
cannot carry the tree's bounds. -/
theorem claim3_counterexample :
    DynamicSegmentTree.get (V := Int) (A := Int) intAdd
        (DynamicSegmentTree.make 0 5 0) 7
      = DynamicSegmentTree.get intAdd (DynamicSegmentTree.make 0 6 0) 7
    ∧ (5 : Int) ≠ 6 := by
  constructor
  · rfl
  · decide

/-- Claim C4: with `b ≥ e`, `set` and `update` of the `dst` tree leave
the tree state literally unchanged, and the legacy `_updateImpl` leaves
every key's value unchanged (so every later `get` / `rangeGet` answers
as if the call had not been made). -/
theorem claim4_empty_range_noop {V A : Type} (op : V → A → V)
    (t : DynamicSegmentTree V A) (b e : Int) (v : V) (a : A) (hbe : e ≤ b) :
    t.set op b e v = t ∧ t.update op b e a = t ∧
    (∀ (cb ce : Int) (n : Node V A) (k : Int), cb ≤ k → k < ce →
      (legacyUpdateImpl op b e cb ce n a).eval op cb ce k
        = n.eval op cb ce k) := by
  refine ⟨?_, ?_, ?_⟩
  · unfold DynamicSegmentTree.set
    rw [if_neg (by omega)]
  · unfold DynamicSegmentTree.update
    rw [if_neg (by omega)]
  · intro cb ce n k hk1 hk2
    exact eval_legacyUpdateImpl_empty op b e hbe cb ce n a k hk1 hk2

/-- Claim C5: a `set` whose range covers the whole working range
collapses the tree to a single leaf holding the new value (children
destroyed, pending cleared), and every in-range key then reads `v`. -/
theorem claim5_covering_set_collapses {V A : Type} (op : V → A → V)
    (t : DynamicSegmentTree V A) (b e : Int) (v : V)
    (hb : b ≤ t.begin_) (he : t.end_ ≤ e) (hbe : b < e) :
    (t.set op b e v).rootNode_ = .leaf v ∧
    ∀ k, t.begin_ ≤ k → k < t.end_ →
      ((t.set op b e v).rootNode_).eval op t.begin_ t.end_ k = v := by
  have hroot : (t.set op b e v).rootNode_ = .leaf v := by
    unfold DynamicSegmentTree.set
    rw [if_pos hbe]
    show setImpl_ op b e t.begin_ t.end_ t.rootNode_ v = .leaf v
    rw [setImpl_, if_pos ⟨by omega, by omega⟩]
    rfl
  refine ⟨hroot, fun k h1 h2 => ?_⟩
  rw [hroot]
  rfl

/-- Claim C6: `Node::update` on an internal node with an occupied
pending slot first applies the old argument to both children and then
stores exactly the new argument — the two arguments are never composed —
and the result denotes `op … a` applied on top of the previous
denotation. -/
theorem claim6_pending_pushed_not_composed {V A : Type} (op : V → A → V)
    (l r : Node V A) (old a : A) :
    (Node.branch l r (some old)).update op a
      = .branch (l.update op old) (r.update op old) (some a)
    ∧ ∀ cb ce k, ((Node.branch l r (some old)).update op a).eval op cb ce k
        = op ((Node.branch l r (some old)).eval op cb ce k) a :=
  ⟨rfl, fun cb ce k => Node.eval_update op _ a cb ce k⟩

/-- Claim C7: whenever `initChildrenSiftingValue` exits by an exception —
allocation failure, a throwing copy of the left child's value, or a
throwing construction of the right child's value — the node is restored
to its pre-call leaf state with its original value intact and the
two-node allocation returned. -/
theorem claim7_initChildren_exception_restores {V : Type} (v : V)
    (failAlloc failLeftCopy failRightCtor : Bool)
    (h : failAlloc = true ∨ failLeftCopy = true ∨ failRightCtor = true) :
    initChildrenSiftingValue failAlloc failLeftCopy failRightCtor v
      = .error (leafState v) := by
  cases failAlloc <;> cases failLeftCopy <;> cases failRightCtor <;>
    simp_all [initChildrenSiftingValue, leafState]

/-- Claim C8: the legacy `_setImpl`, whose right-branch guard reads
`currEnd >= begin + 1`, computes the same final per-key values as the
corrected recursion guarded by `mid > begin` / `mid < end`. -/
theorem claim8_legacy_set_guard_equivalent {V A : Type} (op : V → A → V)
    (b e cb ce : Int) (n : Node V A) (v : V) (k : Int)
    (hbe : b < e) (hk1 : cb ≤ k) (hk2 : k < ce) :
    (legacySetImpl op b e cb ce n v).eval op cb ce k
      = (legacySetImplCorrected op b e cb ce n v).eval op cb ce k := by
  rw [eval_legacySetImpl op b e cb ce n v k hk1 hk2,
    eval_legacySetImplCorrected op b e cb ce n v k hk1 hk2]

/-- Claim C9: the legacy `get` with an out-of-range key raises no error:
it returns the value-initialized `ValueT{}` (modelled by `z`) and leaves
the tree untouched. -/
theorem claim9_legacy_get_out_of_range {V A : Type} (op : V → A → V) (z : V)
    (t : LegacyDynamicSegmentTree V A) (k : Int)
    (h : k < t.beginL ∨ k ≥ t.endL) :
    t.get op z k = (z, t) := by
  unfold LegacyDynamicSegmentTree.get
  rw [if_pos (by omega)]

/-- Claim C10: the point query walk never changes the tree's topology:
the skeleton of allocated nodes after `getImpl_` is exactly the
skeleton before. -/
theorem claim10_get_preserves_topology {V A : Type} (op : V → A → V)
    (k cb ce : Int) (n : Node V A) :
    ((getImpl_ op k cb ce n).2).skeleton = n.skeleton :=
  skeleton_getImpl_snd op k cb ce n

theorem claim1_witness :
    (∀ o ∈ ([Op.set 1 5 9, Op.update 2 6 3, Op.get 3, Op.rangeGet 1 7] :
        List (Op Int Int)), o.inContract 0 8)
    ∧ (0 : Int) ≤ 2 ∧ (2 : Int) < 8
    ∧ ∃ t2, (run intAdd 0 sumInitG sumCombG (DynamicSegmentTree.make 0 8 5)
        [Op.set 1 5 9, Op.update 2 6 3, Op.get 3, Op.rangeGet 1 7]).get intAdd 2
      = .ok (refRun intAdd (fun _ => 5)
          [Op.set 1 5 9, Op.update 2 6 3, Op.get 3, Op.rangeGet 1 7] 2, t2) :=
  ⟨by decide, by decide, by decide,
    claim1_get_refines_reference intAdd 0 sumInitG sumCombG 0 8 5
      [Op.set 1 5 9, Op.update 2 6 3, Op.get 3, Op.rangeGet 1 7] 2
      (by decide) (by decide) (by decide)⟩

theorem claim2_witness :
    (∀ o ∈ ([Op.set 1 5 9, Op.update 2 6 3] : List (Op Int Int)),
        o.inContract 0 8)
    ∧ (0 : Int) ≤ 1 ∧ (1 : Int) < 7 ∧ (7 : Int) ≤ 8
    ∧ ((run intAdd 0 sumInitG sumCombG (DynamicSegmentTree.make 0 8 5)
          [Op.set 1 5 9, Op.update 2 6 3]).rangeGet intAdd 0 sumInitG sumCombG 1 7).1
      = refAgg addG sumInitG
          (refRun intAdd (fun _ => 5) [Op.set 1 5 9, Op.update 2 6 3]) 1
          (((7 : Int) - 1 - 1).toNat) :=
  ⟨by decide, by decide, by decide, by decide,
    claim2_rangeGet_folds_reference intAdd 0 sumInitG sumCombG addG 0 8 5
      [Op.set 1 5 9, Op.update 2 6 3] 1 7
      sumCombG_eq_addG addG_assoc sumInitG_consistent
      (by decide) (by decide) (by decide) (by decide)⟩

theorem claim4_witness :
    (3 : Int) ≤ 3 ∧
    (DynamicSegmentTree.make (V := Int) (A := Int) 0 10 7).set intAdd 3 3 9
        = DynamicSegmentTree.make 0 10 7 ∧
    (DynamicSegmentTree.make (V := Int) (A := Int) 0 10 7).update intAdd 3 3 9
        = DynamicSegmentTree.make 0 10 7 ∧
    (∀ (cb ce : Int) (n : Node Int Int) (k : Int), cb ≤ k → k < ce →
      (legacyUpdateImpl intAdd 3 3 cb ce n 9).eval intAdd cb ce k
        = n.eval intAdd cb ce k) :=
  ⟨by decide,
    (claim4_empty_range_noop intAdd (DynamicSegmentTree.make 0 10 7)
      3 3 9 9 (by decide)).1,
    (claim4_empty_range_noop intAdd (DynamicSegmentTree.make 0 10 7)
      3 3 9 9 (by decide)).2.1,
    (claim4_empty_range_noop intAdd (DynamicSegmentTree.make 0 10 7)
      3 3 9 9 (by decide)).2.2⟩

theorem claim5_witness :
    (-1 : Int) ≤ 0 ∧ (10 : Int) ≤ 11 ∧ (-1 : Int) < 11 ∧
    (((DynamicSegmentTree.make (V := Int) (A := Int) 0 10 4).set intAdd
        (-1) 11 6).rootNode_ = .leaf 6 ∧
      ∀ k, (0 : Int) ≤ k → k < 10 →
        (((DynamicSegmentTree.make (V := Int) (A := Int) 0 10 4).set intAdd
          (-1) 11 6).rootNode_).eval intAdd 0 10 k = 6) :=
  ⟨by decide, by decide, by decide,
    claim5_covering_set_collapses intAdd (DynamicSegmentTree.make 0 10 4)
      (-1) 11 6 (by decide) (by decide) (by decide)⟩

theorem claim7_witness :
    (false = true ∨ true = true ∨ false = true)
    ∧ initChildrenSiftingValue false true false (5 : Int)
        = .error (leafState 5) :=
  ⟨by decide, claim7_initChildren_exception_restores 5 false true false
    (by decide)⟩

theorem claim8_witness :
    (1 : Int) < 6 ∧ (0 : Int) ≤ 3 ∧ (3 : Int) < 8 ∧
    (legacySetImpl intAdd 1 6 0 8 (.leaf (4 : Int)) 9).eval intAdd 0 8 3
      = (legacySetImplCorrected intAdd 1 6 0 8 (.leaf (4 : Int)) 9).eval
          intAdd 0 8 3 :=
  ⟨by decide, by decide, by decide,
    claim8_legacy_set_guard_equivalent intAdd 1 6 0 8 (.leaf 4) 9 3
      (by decide) (by decide) (by decide)⟩

theorem claim9_witness :
    ((42 : Int) < 0 ∨ (42 : Int) ≥ 42) ∧
    LegacyDynamicSegmentTree.get intAdd 0
        (⟨.leaf 54, 0, 42⟩ : LegacyDynamicSegmentTree Int Int) 42
      = (0, ⟨.leaf 54, 0, 42⟩) :=
  ⟨by decide, claim9_legacy_get_out_of_range intAdd 0 ⟨.leaf 54, 0, 42⟩ 42
    (by decide)⟩

end DstSpec
